import Mathlib

/-
  Verification development for the creditCardParser repository
  (src/parsers.py).  The heuristic extraction core
  extract_datapoints_from_text is embedded shallowly: Python regular
  expressions are modelled by a small backtracking matcher over
  List Char whose result order mirrors the Python re module
  (leftmost starting position, alternatives tried left to right,
  greedy quantifiers preferring longer matches), and each regex of the
  source is transcribed into that syntax.  Strings are ASCII-modelled:
  Python str.lower, the \w and \s classes and str.strip are given their
  ASCII meaning, which covers the vocabulary used by the source.
-/

set_option maxRecDepth 100000

namespace CardParser

/-! ### Character classes (ASCII models of the Python classes) -/

/-- Model of Python str.lower for a single character (ASCII range, which is
the relevant range for the keyword matching in parsers.py). -/
def pyLowerChar (c : Char) : Char :=
  if 65 ≤ c.toNat ∧ c.toNat ≤ 90 then Char.ofNat (c.toNat + 32) else c

/-- The regex class \d (ASCII digits). -/
def isDigitCh (c : Char) : Bool := 48 ≤ c.toNat && c.toNat ≤ 57

/-- The regex class \s (Python whitespace, ASCII part). -/
def isSpaceCh (c : Char) : Bool :=
  c == ' ' || c == '\t' || c == '\n' || c == '\r' || c == '\x0b' || c == '\x0c'

/-- The regex class \w (ASCII part), used for word boundaries \b. -/
def isWordCh (c : Char) : Bool :=
  (65 ≤ c.toNat && c.toNat ≤ 90) || (97 ≤ c.toNat && c.toNat ≤ 122) ||
    isDigitCh c || c == '_'

/-- The class [A-Z]. -/
def isUpperCh (c : Char) : Bool := 65 ≤ c.toNat && c.toNat ≤ 90

/-- An ASCII letter, i.e. the class [a-z] under the re.I flag. -/
def isAsciiLetter (c : Char) : Bool :=
  (65 ≤ c.toNat && c.toNat ≤ 90) || (97 ≤ c.toNat && c.toNat ≤ 122)

/-- The class [*Xx] of masking characters (parsers.py line 67). -/
def isMaskCh (c : Char) : Bool := c == '*' || c == 'X' || c == 'x'

/-- The class [*Xx0-9\s\-] (parsers.py line 67). -/
def isMaskMixCh (c : Char) : Bool :=
  isMaskCh c || isDigitCh c || isSpaceCh c || c == '-'

/-- The class [:\-]. -/
def isColonDash (c : Char) : Bool := c == ':' || c == '-'

/-- The class [/\x2d] separating date components. -/
def isDateSep (c : Char) : Bool := c == '/' || c == '-'

/-- The class [-–] (hyphen or en-dash) of the statement-period range
regex (parsers.py line 171). -/
def isRangeDash (c : Char) : Bool := c == '-' || c == '–'

/-- The class [.,]. -/
def isDotComma (c : Char) : Bool := c == '.' || c == ','

/-- The class [\s\w] of the loose total-due fallback (parsers.py line 130). -/
def isWordSpaceCh (c : Char) : Bool := isSpaceCh c || isWordCh c

/-- The class [A-Z\s\.\-] of the cardholder-name captures
(parsers.py lines 182 and 187). -/
def isNameCh (c : Char) : Bool :=
  isUpperCh c || isSpaceCh c || c == '.' || c == '-'

/-! ### List-of-characters helpers (models of Python str methods) -/

/-- text[a:b] on a character list. -/
def sliceL (s : List Char) (a b : Nat) : List Char := (s.drop a).take (b - a)

/-- Model of Python str.lower (ASCII). -/
def pyLowerL (s : List Char) : List Char := s.map pyLowerChar

/-- Model of Python str.strip (whitespace from both ends). -/
def pyStripL (s : List Char) : List Char :=
  ((s.dropWhile isSpaceCh).reverse.dropWhile isSpaceCh).reverse

/-- Model of Python str.replace(",", "") used to drop thousands
separators (parsers.py lines 121, 134, 214). -/
def stripCommaL (s : List Char) : List Char := s.filter (fun c => c ≠ ',')

/-- Model of Python int() on a digit string (parsers.py line 93). -/
def pyIntNat (s : List Char) : Nat :=
  s.foldl (fun acc c => acc * 10 + (c.toNat - 48)) 0

/-- Does sub occur in l starting at index i. -/
def subAt (l sub : List Char) (i : Nat) : Bool :=
  decide (sliceL l i (i + sub.length) = sub)

/-- Does sub occur anywhere in l (substring containment). -/
def hasSub (l sub : List Char) : Bool :=
  (List.range (l.length + 1)).any (subAt l sub)

/-- Model of Python str.split() (split on whitespace runs, no empty
words), with explicit fuel for structural recursion. -/
def wordsAux (notSp : Char → Bool) : Nat → List Char → List (List Char)
  | 0, _ => []
  | fuel + 1, l =>
    match l.dropWhile isSpaceCh with
    | [] => []
    | c :: rest =>
      (c :: rest.takeWhile notSp) :: wordsAux notSp fuel (rest.dropWhile notSp)

def wordsOf (l : List Char) : List (List Char) :=
  wordsAux (fun c => !isSpaceCh c) (l.length + 1) l

/-- The line-break characters recognised by Python str.splitlines. -/
def isLineBreak (c : Char) : Bool :=
  c == '\n' || c == '\r' || c == '\x0b' || c == '\x0c' ||
  c == '\x1c' || c == '\x1d' || c == '\x1e' || c == '\u0085' ||
  c == ' ' || c == ' '

/-- Model of Python str.splitlines (a \r\n pair counts as one break). -/
def splitLinesAux : Nat → List Char → List (List Char)
  | 0, _ => []
  | fuel + 1, l =>
    match l with
    | [] => []
    | _ :: _ =>
      let line := l.takeWhile (fun c => !isLineBreak c)
      match l.drop line.length with
      | [] => [line]
      | '\r' :: '\n' :: tl => line :: splitLinesAux fuel tl
      | _ :: tl => line :: splitLinesAux fuel tl

def pySplitLines (l : List Char) : List (List Char) :=
  splitLinesAux (l.length + 1) l

/-- Split a character list at every occurrence of ch. -/
def splitOnCh (ch : Char) : Nat → List Char → List (List Char)
  | 0, _ => []
  | fuel + 1, l =>
    let a := l.takeWhile (fun c => c ≠ ch)
    match l.drop a.length with
    | [] => [a]
    | _ :: tl => a :: splitOnCh ch fuel tl

/-- A nonempty all-digit character list. -/
def digitsB (l : List Char) : Bool := !l.isEmpty && l.all isDigitCh

/-- The string is the decimal notation of a non-negative number:
a nonempty digit run, optionally followed by a point and another
nonempty digit run. -/
def isDecimalString (s : String) : Bool :=
  match splitOnCh '.' (s.data.length + 1) s.data with
  | [a] => digitsB a
  | [a, b] => digitsB a && digitsB b
  | _ => false

/-! ### Regex syntax -/

/-- Abstract syntax of the fragment of Python regexes used by
parsers.py.  char carries a character-class predicate; grp is a
numbered capturing group; bnd is the word boundary \b. -/
inductive RE where
  | eps
  | char (p : Char → Bool)
  | cat (a b : RE)
  | alt (a b : RE)
  | star (a : RE)
  | grp (n : Nat) (a : RE)
  | bnd

/-- a? (greedy: try a first, then the empty alternative). -/
def ropt (a : RE) : RE := RE.alt a RE.eps

/-- a+ (greedy). -/
def rplus (a : RE) : RE := RE.cat a (RE.star a)

/-- a{n}. -/
def repN (a : RE) : Nat → RE
  | 0 => RE.eps
  | n + 1 => RE.cat a (repN a n)

/-- a{0,n}, greedy (longer repetitions preferred). -/
def optUpTo (a : RE) : Nat → RE
  | 0 => RE.eps
  | n + 1 => ropt (RE.cat a (optUpTo a n))

/-- a{lo,hi}, greedy. -/
def repRange (a : RE) (lo hi : Nat) : RE :=
  RE.cat (repN a lo) (optUpTo a (hi - lo))

/-- a{lo,}, greedy. -/
def atLeastN (a : RE) (lo : Nat) : RE := RE.cat (repN a lo) (RE.star a)

/-- A case-sensitive literal. -/
def litL : List Char → RE
  | [] => RE.eps
  | c :: cs => RE.cat (RE.char (fun x => x == c)) (litL cs)

def lits (s : String) : RE := litL s.data

/-- A case-insensitive literal (written in lowercase), as compiled
under the re.I flag. -/
def litCIL : List Char → RE
  | [] => RE.eps
  | c :: cs => RE.cat (RE.char (fun x => pyLowerChar x == c)) (litCIL cs)

def litCI (s : String) : RE := litCIL s.data

/-- An ordered alternation r1|r2|...|rn (a never-matching tail closes
the chain without changing its matches). -/
def altList : List RE → RE
  | [] => RE.char (fun _ => false)
  | [r] => r
  | r :: rs => RE.alt r (altList rs)

/-- Syntactic size, used only to compute a sufficient fuel. -/
def sizeRE : RE → Nat
  | .eps => 1
  | .char _ => 1
  | .bnd => 1
  | .cat a b => sizeRE a + sizeRE b + 1
  | .alt a b => sizeRE a + sizeRE b + 1
  | .star a => sizeRE a + 1
  | .grp _ a => sizeRE a + 1

/-! ### The matcher

mruns s fuel r i caps lists every way r can match in s starting at
position i, as pairs (end position, captures), in exactly the order the
Python backtracking engine explores them: alternatives left to right,
stars and options longest first.  The head of the list is the match
Python commits to.  fuel only guards structural recursion: every
recursive call decrements it by one, and the recursion depth of any
match attempt is bounded by (length + 2) * (size + 2) because each
star iteration strictly advances the position, so the fuel chosen in
fuelFor is never exhausted. -/

/-- Capture store: (group number, start, end), most recent first. -/
abbrev Caps := List (Nat × Nat × Nat)

def capLookup (caps : Caps) (n : Nat) : Option (Nat × Nat) :=
  (caps.find? (fun e => e.1 == n)).map (fun e => (e.2.1, e.2.2))

/-- Is there a word boundary (\b) at position i of s. -/
def wordBoundary (s : List Char) (i : Nat) : Bool :=
  (if i = 0 then false else decide (i - 1 < s.length) && isWordCh (s.getD (i - 1) '?'))
    != (decide (i < s.length) && isWordCh (s.getD i '?'))

def mruns (s : List Char) : Nat → RE → Nat → Caps → List (Nat × Caps)
  | 0, _, _, _ => []
  | _ + 1, RE.eps, i, caps => [(i, caps)]
  | _ + 1, RE.char p, i, caps =>
    if i < s.length then
      (if p (s.getD i '?') then [(i + 1, caps)] else [])
    else []
  | _ + 1, RE.bnd, i, caps => if wordBoundary s i then [(i, caps)] else []
  | fuel + 1, RE.cat a b, i, caps =>
    (mruns s fuel a i caps).flatMap (fun x => mruns s fuel b x.1 x.2)
  | fuel + 1, RE.alt a b, i, caps =>
    mruns s fuel a i caps ++ mruns s fuel b i caps
  | fuel + 1, RE.grp n a, i, caps =>
    (mruns s fuel a i caps).map (fun x => (x.1, (n, i, x.1) :: x.2))
  | fuel + 1, RE.star a, i, caps =>
    ((mruns s fuel a i caps).filter (fun x => i < x.1)).flatMap
      (fun x => mruns s fuel (RE.star a) x.1 x.2) ++ [(i, caps)]

/-- Fuel sufficient for any match attempt of r in s (see above). -/
def fuelFor (s : List Char) (r : RE) : Nat := (s.length + 2) * (sizeRE r + 2)

/-- A match object: start, end, and captures. -/
structure PyMatch where
  st : Nat
  en : Nat
  caps : Caps
deriving DecidableEq, Repr

/-- re.search scanning: try each starting position from i on
(cnt positions in all), return the first position with a match and the
first match there. -/
def searchFrom (s : List Char) (r : RE) : Nat → Nat → Option PyMatch
  | 0, _ => none
  | cnt + 1, i =>
    match mruns s (fuelFor s r) r i [] with
    | [] => searchFrom s r cnt (i + 1)
    | x :: _ => some ⟨i, x.1, x.2⟩

/-- Model of re.search. -/
def reSearch (s : List Char) (r : RE) : Option PyMatch :=
  searchFrom s r (s.length + 1) 0

/-- Model of re.finditer: repeated non-overlapping search; after a
match the scan resumes at its end (one past it for an empty match). -/
def finditerAux (s : List Char) (r : RE) : Nat → Nat → List PyMatch
  | 0, _ => []
  | cnt + 1, pos =>
    match searchFrom s r (s.length + 1 - pos) pos with
    | none => []
    | some m =>
      m :: finditerAux s r cnt (if m.en = m.st then m.en + 1 else m.en)

def reFinditer (s : List Char) (r : RE) : List PyMatch :=
  finditerAux s r (s.length + 2) 0

/-- m.group(0) of a match on s. -/
def m0Str (s : List Char) (m : PyMatch) : String := ⟨sliceL s m.st m.en⟩

/-- m.group(n) of a match on s. -/
def grpStr (s : List Char) (m : PyMatch) (n : Nat) : Option String :=
  (capLookup m.caps n).map (fun p => (⟨sliceL s p.1 p.2⟩ : String))

/-! ### The regex vocabulary of parsers.py -/

/-- AMOUNT_RE (parsers.py line 19):
(?:Rs\.?|INR|₹)?\s*([0-9]{1,3}(?:,[0-9]{3})*(?:\.\d+)?|\d+(?:\.\d+)?) -/
def curMarkRE : RE :=
  ropt (RE.alt (RE.cat (lits "Rs") (ropt (RE.char (fun c => c == '.'))))
    (RE.alt (lits "INR") (RE.char (fun c => c == '₹'))))

def wsStar : RE := RE.star (RE.char isSpaceCh)

def wsPlus : RE := rplus (RE.char isSpaceCh)

def dCh : RE := RE.char isDigitCh

/-- (?:\.\d+)? -/
def fracOptRE : RE := ropt (RE.cat (RE.char (fun c => c == '.')) (rplus dCh))

/-- [0-9]{1,3}(?:,[0-9]{3})*(?:\.\d+)? -/
def amountNumA : RE :=
  RE.cat (repRange dCh 1 3)
    (RE.cat (RE.star (RE.cat (RE.char (fun c => c == ',')) (repN dCh 3))) fracOptRE)

/-- \d+(?:\.\d+)? -/
def amountNumB : RE := RE.cat (rplus dCh) fracOptRE

def AMOUNT_RE : RE :=
  RE.cat curMarkRE (RE.cat wsStar (RE.grp 1 (RE.alt amountNumA amountNumB)))

/-- The three-letter month names of DATE_RE, in source order. -/
def monthRE : RE :=
  altList [litCI "jan", litCI "feb", litCI "mar", litCI "apr", litCI "may",
    litCI "jun", litCI "jul", litCI "aug", litCI "sep", litCI "sept",
    litCI "oct", litCI "nov", litCI "dec"]

/-- \b\d{1,2}[/\x2d]\d{1,2}[/\x2d]\d{2,4}\b -/
def dateAlt1 : RE :=
  RE.cat RE.bnd (RE.cat (repRange dCh 1 2) (RE.cat (RE.char isDateSep)
    (RE.cat (repRange dCh 1 2) (RE.cat (RE.char isDateSep)
      (RE.cat (repRange dCh 2 4) RE.bnd)))))

/-- \b(?:\d{1,2}\s+(?:months)[a-z]*[.,]?\s+\d{2,4})\b  (with re.I the
class [a-z] also matches capitals). -/
def dateAlt2 : RE :=
  RE.cat RE.bnd (RE.cat (repRange dCh 1 2) (RE.cat wsPlus (RE.cat monthRE
    (RE.cat (RE.star (RE.char isAsciiLetter)) (RE.cat (ropt (RE.char isDotComma))
      (RE.cat wsPlus (RE.cat (repRange dCh 2 4) RE.bnd)))))))

/-- \b(?:months)[a-z]*\s+\d{1,2}[,]?\s+\d{2,4}\b -/
def dateAlt3 : RE :=
  RE.cat RE.bnd (RE.cat monthRE (RE.cat (RE.star (RE.char isAsciiLetter))
    (RE.cat wsPlus (RE.cat (repRange dCh 1 2) (RE.cat (ropt (RE.char (fun c => c == ',')))
      (RE.cat wsPlus (RE.cat (repRange dCh 2 4) RE.bnd)))))))

/-- DATE_RE (parsers.py lines 22-25), compiled with re.I. -/
def DATE_RE : RE := RE.grp 1 (RE.alt dateAlt1 (RE.alt dateAlt2 dateAlt3))

/-- The masked-card regex (parsers.py line 67):
([*Xx]{2,}[*Xx0-9\s\-]{0,20}(\d{4})) -/
def maskedRE : RE :=
  RE.grp 1 (RE.cat (atLeastN (RE.char isMaskCh) 2)
    (RE.cat (repRange (RE.char isMaskMixCh) 0 20) (RE.grp 2 (repN dCh 4))))

/-- \d{4} (parsers.py lines 72, 81, 91). -/
def fourRE : RE := repN dCh 4

/-- card\b|card no|card number|card account (parsers.py line 75),
searched on the lowercased text. -/
def cardRE : RE :=
  altList [RE.cat (lits "card") RE.bnd, lits "card no",
    lits "card number", lits "card account"]

/-- The total_keywords list (parsers.py lines 104-113), searched on the
lowercased text. -/
def totalKeywords : List RE :=
  [ RE.cat (lits "total") (RE.cat wsStar
      (RE.cat (ropt (RE.cat (lits "amount") wsStar)) (lits "due"))),
    RE.cat (lits "total") (RE.cat wsStar (lits "dues")),
    RE.cat (lits "total") (RE.cat wsStar
      (RE.cat (lits "payment") (RE.cat wsStar (lits "due")))),
    RE.cat (lits "your") (RE.cat wsStar (RE.cat (lits "total")
      (RE.cat wsStar (RE.cat (lits "amount") (RE.cat wsStar (lits "due")))))),
    RE.cat (lits "total") (RE.cat wsStar
      (RE.cat (lits "dues") (RE.cat wsStar (ropt (RE.char isColonDash))))),
    RE.cat (lits "total") (RE.cat wsStar
      (RE.cat (lits "amount") (RE.cat wsStar (lits "payable")))),
    RE.cat (lits "total") (RE.cat wsStar (lits "payment")),
    RE.cat (lits "total") (RE.cat wsStar (RE.cat (RE.char (fun c => c == 'd'))
      (RE.cat (RE.grp 1 (RE.alt (lits "ue") (lits "ues"))) RE.bnd))) ]

/-- (total[\s\w]{0,20}due|total[\s\w]{0,20}dues) (parsers.py line 130). -/
def totalLooseRE : RE :=
  RE.grp 1 (RE.alt
    (RE.cat (lits "total") (RE.cat (repRange (RE.char isWordSpaceCh) 0 20) (lits "due")))
    (RE.cat (lits "total") (RE.cat (repRange (RE.char isWordSpaceCh) 0 20) (lits "dues"))))

/-- The due_patterns list (parsers.py line 139). -/
def duePatterns : List RE :=
  [ RE.cat (lits "payment") (RE.cat wsStar (RE.cat (lits "due")
      (RE.cat wsStar (lits "date")))),
    RE.cat (lits "due") (RE.cat wsStar (lits "date")),
    RE.cat (lits "payment") (RE.cat wsStar (RE.cat (lits "due") RE.bnd)),
    RE.cat (lits "payment") (RE.cat wsStar (RE.cat (lits "due")
      (RE.cat wsStar (ropt (RE.char isColonDash))))),
    RE.cat (lits "payment") (RE.cat wsStar (RE.cat (lits "due") wsStar)) ]

/-- (immediat|immediate|immediately|immediately) with re.I
(parsers.py line 151). -/
def immediateRE : RE :=
  RE.grp 1 (altList [litCI "immediat", litCI "immediate",
    litCI "immediately", litCI "immediately"])

/-- The statement_patterns list (parsers.py line 161). -/
def statementPatterns : List RE :=
  [ RE.cat (lits "statement") (RE.cat wsStar (lits "date")),
    RE.cat (lits "statement") (RE.cat wsStar (RE.cat (lits "generation")
      (RE.cat wsStar (lits "date")))),
    RE.cat (lits "statement") (RE.cat wsStar (lits "period")),
    RE.cat (lits "statement") (RE.cat wsStar (lits "for")) ]

/-- (\d{1,2}[/\x2d]\d{1,2}[/\x2d]\d{2,4}\s*[-–]\s*\d{1,2}[/\x2d]\d{1,2}[/\x2d]\d{2,4})
(parsers.py line 171). -/
def numDatePiece : RE :=
  RE.cat (repRange dCh 1 2) (RE.cat (RE.char isDateSep)
    (RE.cat (repRange dCh 1 2) (RE.cat (RE.char isDateSep) (repRange dCh 2 4))))

def rangeRE : RE :=
  RE.grp 1 (RE.cat numDatePiece (RE.cat wsStar
    (RE.cat (RE.char isRangeDash) (RE.cat wsStar numDatePiece))))

/-- \bName\s*[:\-]\s*([A-Z][A-Z\s\.\-]{2,100}) (parsers.py line 182). -/
def nameRE : RE :=
  RE.cat RE.bnd (RE.cat (lits "Name") (RE.cat wsStar (RE.cat (RE.char isColonDash)
    (RE.cat wsStar (RE.grp 1 (RE.cat (RE.char isUpperCh)
      (repRange (RE.char isNameCh) 2 100)))))))

/-- \bCustomer\s+Name\s*[:\-]?\s*([A-Z][A-Z\s\.\-]{2,100})
(parsers.py line 187). -/
def custNameRE : RE :=
  RE.cat RE.bnd (RE.cat (lits "Customer") (RE.cat wsPlus (RE.cat (lits "Name")
    (RE.cat wsStar (RE.cat (ropt (RE.char isColonDash))
      (RE.cat wsStar (RE.grp 1 (RE.cat (RE.char isUpperCh)
        (repRange (RE.char isNameCh) 2 100)))))))))

/-! ### The extraction logic of parsers.py -/

structure Candidates where
  dates : List String
  amounts : List String
deriving DecidableEq, Repr

structure ExtractionResult where
  cardholder_name : Option String
  statement_date : Option String
  payment_due_date : Option String
  total_amount_due : Option String
  card_last4 : Option String
  candidates : Candidates
deriving DecidableEq, Repr

/-- Python truthiness of an optional string: None and "" are falsy. -/
def optFalsy : Option String → Bool
  | none => true
  | some s => s.data.isEmpty

def pyStripStr (s : String) : String := ⟨pyStripL s.data⟩

/-- find_amount_near (parsers.py lines 28-33): search the window
text[start_idx : start_idx + search_window] for AMOUNT_RE and return
group(1). -/
def find_amount_near (t : List Char) (startIdx win : Nat) : Option String :=
  let w := sliceL t startIdx (startIdx + win)
  match reSearch w AMOUNT_RE with
  | some m => grpStr w m 1
  | none => none

/-- The card-last-4 chain (parsers.py lines 58-100), before stripping. -/
def bestByCard (t : List Char) (positions : List Nat)
    (fours : List PyMatch) : Option String :=
  (positions.foldl (fun best pos =>
    fours.foldl (fun b m2 =>
      let dist := if m2.st ≤ pos then pos - m2.st else m2.st - pos
      match b with
      | none => some (m0Str t m2, dist)
      | some pr => if dist < pr.2 then some (m0Str t m2, dist) else b) best)
    none).map (fun pr => pr.1)

def cardField (textC lowerC : List Char) : Option String :=
  let possible :=
    match reSearch textC maskedRE with
    | some m => grpStr textC m 2
    | none =>
      let allFour := reFinditer textC fourRE
      if allFour.isEmpty then none
      else
        let cardPositions := (reFinditer lowerC cardRE).map (fun m => m.st)
        if cardPositions.isEmpty then
          let cand := allFour.filter (fun m2 =>
            !(1900 ≤ pyIntNat (sliceL textC m2.st m2.en) &&
              pyIntNat (sliceL textC m2.st m2.en) ≤ 2099))
          cand.head?.map (m0Str textC)
        else bestByCard textC cardPositions (reFinditer textC fourRE)
  if optFalsy possible then none else possible.map pyStripStr

/-- The total-amount-due primary keyword chain (parsers.py lines
114-125): for the first keyword with a window amount, the first such
occurrence wins; commas are stripped from the capture. -/
def totalPrimary (lowerC : List Char) : Option String :=
  totalKeywords.findSome? (fun kw =>
    (reFinditer lowerC kw).findSome? (fun m =>
      (find_amount_near lowerC m.en 200).map
        (fun a => (⟨stripCommaL a.data⟩ : String))))

/-- The loose fallback (parsers.py lines 128-135), searching a
300-character window of the original-case text from the match start. -/
def totalLoose (textC lowerC : List Char) : Option String :=
  (reFinditer lowerC totalLooseRE).findSome? (fun m =>
    (find_amount_near textC m.st 300).map
      (fun a => (⟨stripCommaL a.data⟩ : String)))

def totalField (textC lowerC : List Char) : Option String :=
  let p := totalPrimary lowerC
  if optFalsy p then
    match totalLoose textC lowerC with
    | some x => some x
    | none => p
  else p

/-- The payment-due-date chain (parsers.py lines 137-158). -/
def dueField (textC lowerC : List Char) : Option String :=
  duePatterns.findSome? (fun pat =>
    (reFinditer lowerC pat).findSome? (fun m =>
      let w := sliceL textC m.en (m.en + 140)
      match reSearch w DATE_RE with
      | some dm => some (pyStripStr (m0Str w dm))
      | none =>
        match reSearch w immediateRE with
        | some im => some (pyStripStr (m0Str w im))
        | none => none))

/-- The statement-date chain (parsers.py lines 160-177). -/
def stmtField (textC lowerC : List Char) : Option String :=
  statementPatterns.findSome? (fun pat =>
    (reFinditer lowerC pat).findSome? (fun m =>
      let w := sliceL textC m.en (m.en + 140)
      match reSearch w DATE_RE with
      | some dm => some (pyStripStr (m0Str w dm))
      | none => (reSearch w rangeRE).map (fun dm2 => pyStripStr (m0Str w dm2))))

/-- The bad-term filter of the fallback line scan (parsers.py
line 205): a case-insensitive search for any of the listed literals. -/
def badTermsCheck (l : List Char) : Bool :=
  let ll := pyLowerL l
  hasSub ll "statement".data || hasSub ll "payment".data || hasSub ll "due".data ||
  hasSub ll "account".data || hasSub ll "page".data || hasSub ll "customer".data ||
  hasSub ll "bank".data || hasSub ll "credit".data || hasSub ll "statement date".data

/-- re.match(r\x27^[A-Z][a-zA-Z\.]{1,}$\x27, w) of the fallback scan
(parsers.py line 203): an uppercase letter followed by one or more
letters or periods, spanning the whole word. -/
def wordShape (w : List Char) : Bool :=
  match w with
  | [] => false
  | c :: rest =>
    isUpperCh c && !rest.isEmpty && rest.all (fun x => isAsciiLetter x || x == '.')

/-- The fallback line scan (parsers.py lines 190-207): first of the
first 12 lines that is nonempty, has no digit, has 2-5 words, has at
least one name-shaped word and no bad term. -/
def fallbackNameScan (textC : List Char) : Option String :=
  ((pySplitLines textC).take 12).findSome? (fun line =>
    let l := pyStripL line
    if l.isEmpty then none
    else if l.any isDigitCh then none
    else
      let ws := wordsOf l
      if 1 < ws.length ∧ ws.length ≤ 5 then
        if 1 ≤ (ws.filter wordShape).length then
          if badTermsCheck l then none else some (⟨l⟩ : String)
        else none
      else none)

/-- The cardholder-name chain (parsers.py lines 179-208). -/
def nameField (textC : List Char) : Option String :=
  let labelled :=
    match reSearch textC nameRE with
    | some nm => (grpStr textC nm 1).map pyStripStr
    | none =>
      match reSearch textC custNameRE with
      | some nm2 => (grpStr textC nm2 1).map pyStripStr
      | none => none
  if optFalsy labelled then
    match fallbackNameScan textC with
    | some l => some l
    | none => labelled
  else labelled

/-- The candidate pools (parsers.py lines 210-214). -/
def datesOf (textC : List Char) : List String :=
  (reFinditer textC DATE_RE).map (m0Str textC)

def amountsOf (textC : List Char) : List String :=
  (reFinditer textC AMOUNT_RE).map (fun am =>
    (⟨stripCommaL ((grpStr textC am 1).getD "").data⟩ : String))

/-- extract_datapoints_from_text (parsers.py lines 36-216). -/
def extract_datapoints_from_text (text : String) : ExtractionResult :=
  let textC := text.data
  let lowerC := pyLowerL textC
  { cardholder_name := nameField textC
    statement_date := stmtField textC lowerC
    payment_due_date := dueField textC lowerC
    total_amount_due := totalField textC lowerC
    card_last4 := cardField textC lowerC
    candidates :=
      { dates := datesOf textC
        amounts := amountsOf textC } }

end CardParser

namespace CardParser

/-! ### Text-level conditions used in the claim statements -/

/-- Literal substring containment between strings. -/
def containsSub (t sub : String) : Bool := hasSub t.data sub.data

/-- Four consecutive ASCII digits start at index st of t. -/
def digits4At (t : List Char) (st : Nat) : Bool :=
  decide (st + 4 ≤ t.length) && (sliceL t st (st + 4)).all isDigitCh

/-- Every 4-digit substring of t parses into the year range
[1900, 2099] (vacuously true when there is none). -/
def yearOnlyFours (t : List Char) : Bool :=
  (List.range t.length).all (fun st =>
    !digits4At t st ||
      (1900 ≤ pyIntNat (sliceL t st (st + 4)) &&
        pyIntNat (sliceL t st (st + 4)) ≤ 2099))

/-- The lowercased text contains no occurrence of the word card (which
subsumes the card no / card number / card account phrases). -/
def noCardKeyword (t : List Char) : Bool := !hasSub (pyLowerL t) "card".data

end CardParser

namespace CardParser

/-! ### Claim theorems (decidable evaluations) -/

/-- C1 counterexample: the input "Payment Due IMMEDIATELY" contains the
literal substring "Payment Due IMMEDIATELY", yet the extractor returns
payment_due_date = "IMMEDIAT", not "IMMEDIATELY": the alternation
(immediat|immediate|immediately|immediately) commits to its first
alternative, so the claim as stated is false at this input. -/
theorem claim_C1_counterexample :
    containsSub "Payment Due IMMEDIATELY" "Payment Due IMMEDIATELY" = true ∧
    (extract_datapoints_from_text "Payment Due IMMEDIATELY").payment_due_date
      = some "IMMEDIAT" ∧
    (some "IMMEDIAT" : Option String) ≠ some "IMMEDIATELY" := by decide

/-- C1 amended: on the input "Payment Due Date 15/03/2024" the extractor
returns payment_due_date = "15/03/2024", and on the input
"Payment Due IMMEDIATELY" it returns payment_due_date = "IMMEDIAT"
(the prefix token matched by the first alternative of the immediate-word
regex, casing as present in the source text). -/
theorem claim_C1_amended :
    (extract_datapoints_from_text "Payment Due Date 15/03/2024").payment_due_date
      = some "15/03/2024" ∧
    (extract_datapoints_from_text "Payment Due IMMEDIATELY").payment_due_date
      = some "IMMEDIAT" := by decide

/-- C2 counterexample: on the input "Payment due15/03/2024" the
payment-due window (a fresh string, whose start is a string boundary)
matches the date 15/03/2024, but in the full text that date is glued to
the word due, so the word-boundary anchored DATE_RE finds no full-text
match at all: payment_due_date is a matched date yet candidates.dates is
empty, refuting both the membership and the length inequality. -/
theorem claim_C2_counterexample :
    (extract_datapoints_from_text "Payment due15/03/2024").payment_due_date
      = some "15/03/2024" ∧
    (extract_datapoints_from_text "Payment due15/03/2024").candidates.dates
      = [] := by decide

/-- C3 counterexample: in "**2024" every 4-digit substring (2024) lies in
[1900, 2099] and no card keyword occurs, yet card_last4 = "2024": the
masked-run heuristic (step 1) fires before the year filter and has no
year exclusion. -/
theorem claim_C3_counterexample :
    yearOnlyFours "**2024".data = true ∧
    noCardKeyword "**2024".data = true ∧
    (extract_datapoints_from_text "**2024").card_last4 = some "2024" := by decide

/-- C4 counterexample: the input contains the literal substring
"Total Amount Due: Rs. 12,345.67", but an earlier occurrence of the
first total keyword (total due) yields the amount 5, so
total_amount_due = "5", not "12345.67". -/
theorem claim_C4_counterexample :
    containsSub "Total due 5 Total Amount Due: Rs. 12,345.67"
      "Total Amount Due: Rs. 12,345.67" = true ∧
    (extract_datapoints_from_text
      "Total due 5 Total Amount Due: Rs. 12,345.67").total_amount_due
      = some "5" ∧
    (some "5" : Option String) ≠ some "12345.67" := by decide

/-- C4 amended: on the exact input "Total Amount Due: Rs. 12,345.67"
(and in general when this substring provides the first successful
keyword-window amount), total_amount_due = "12345.67": thousands
separators stripped, decimal point preserved, currency marker excluded. -/
theorem claim_C4_amended :
    (extract_datapoints_from_text "Total Amount Due: Rs. 12,345.67").total_amount_due
      = some "12345.67" := by decide

/-- C5 counterexample: the input "Name: JOHN SMITHY" contains the
literal substring "Name: JOHN SMITH", but the greedy capture extends to
the whole run of name characters, so cardholder_name = "JOHN SMITHY". -/
theorem claim_C5_counterexample :
    containsSub "Name: JOHN SMITHY" "Name: JOHN SMITH" = true ∧
    (extract_datapoints_from_text "Name: JOHN SMITHY").cardholder_name
      = some "JOHN SMITHY" ∧
    (some "JOHN SMITHY" : Option String) ≠ some "JOHN SMITH" := by decide

/-- C5 amended: on the exact input "Name: JOHN SMITH" (and in general
when the Name-labelled capture is not extended or preempted by
surrounding text), cardholder_name = "JOHN SMITH". -/
theorem claim_C5_amended :
    (extract_datapoints_from_text "Name: JOHN SMITH").cardholder_name
      = some "JOHN SMITH" := by decide

/-- C6 counterexample: the input "xx1111 and 530562******9004" contains
the literal substring "530562******9004", but an earlier masked run
(xx1111) is found first, so card_last4 = "1111", not "9004". -/
theorem claim_C6_counterexample :
    containsSub "xx1111 and 530562******9004" "530562******9004" = true ∧
    (extract_datapoints_from_text "xx1111 and 530562******9004").card_last4
      = some "1111" ∧
    (some "1111" : Option String) ≠ some "9004" := by decide

/-- C6 amended: on the exact input "530562******9004" (and in general
when this substring provides the first masked-run match of the text),
card_last4 = "9004", the 4-digit tail after the masking run. -/
theorem claim_C6_amended :
    (extract_datapoints_from_text "530562******9004").card_last4
      = some "9004" := by decide

/-- C7: on the empty string the extractor returns the well-formed
all-none result with empty candidate pools (and, being a total Lean
function, the embedded extractor cannot raise). -/
theorem claim_C7_empty :
    extract_datapoints_from_text "" =
      { cardholder_name := none, statement_date := none,
        payment_due_date := none, total_amount_due := none,
        card_last4 := none, candidates := { dates := [], amounts := [] } } := by
  decide

/-- C9: the extraction is a deterministic pure function of the input
text: two calls on identical inputs return identical results (the
embedding is a function of the text alone; the source touches no
mutable global state inside extract_datapoints_from_text). -/
theorem claim_C9_deterministic (t1 t2 : String) (h : t1 = t2) :
    extract_datapoints_from_text t1 = extract_datapoints_from_text t2 := by
  rw [h]

/-- C9 witness: the determinism theorem applied at a concrete input. -/
theorem claim_C9_witness :
    extract_datapoints_from_text "Name: JOHN SMITH"
      = extract_datapoints_from_text "Name: JOHN SMITH" :=
  claim_C9_deterministic "Name: JOHN SMITH" "Name: JOHN SMITH" rfl

end CardParser

namespace CardParser

/-! ### Character-class facts -/

/-- Character classes are stated through toNat, so facts about them
reduce to arithmetic; the A-Z branch of pyLowerChar is finite and is
settled case by case. -/
theorem isDigitCh_pyLowerChar {c : Char} (h : isDigitCh (pyLowerChar c) = true) :
    isDigitCh c = true := by
  unfold pyLowerChar at h
  split at h
  · rename_i hc
    exfalso
    obtain ⟨h1, h2⟩ := hc
    generalize hg : c.toNat = n at h1 h2 h
    interval_cases n <;> exact absurd h (by decide)
  · exact h

theorem notDigit_of_isSpaceCh {c : Char} (h : isSpaceCh c = true) :
    isDigitCh c = false := by
  simp only [isSpaceCh, Bool.or_eq_true, beq_iff_eq] at h
  rcases h with ((((h | h) | h) | h) | h) | h <;> (subst h; decide)

theorem notDigit_of_isUpperCh {c : Char} (h : isUpperCh c = true) :
    isDigitCh c = false := by
  cases hd : isDigitCh c
  · rfl
  · exfalso
    simp only [isUpperCh, Bool.and_eq_true, decide_eq_true_eq] at h
    simp only [isDigitCh, Bool.and_eq_true, decide_eq_true_eq] at hd
    omega

theorem notDigit_of_isNameCh {c : Char} (h : isNameCh c = true) :
    isDigitCh c = false := by
  simp only [isNameCh, Bool.or_eq_true, beq_iff_eq] at h
  rcases h with ((h | h) | h) | h
  · exact notDigit_of_isUpperCh h
  · exact notDigit_of_isSpaceCh h
  · subst h; decide
  · subst h; decide

theorem notDigit_of_isColonDash {c : Char} (h : isColonDash c = true) :
    isDigitCh c = false := by
  simp only [isColonDash, Bool.or_eq_true, beq_iff_eq] at h
  rcases h with h | h <;> (subst h; decide)

theorem ne_comma_of_digit {c : Char} (h : isDigitCh c = true) : c ≠ ',' := by
  intro he; subst he; exact absurd h (by decide)

/-! ### Slice facts -/

theorem sliceL_getD {s : List Char} {a b k : Nat} (d : Char)
    (hk : k < (sliceL s a b).length) : (sliceL s a b).getD k d = s.getD (a + k) d := by
  unfold sliceL at *
  simp only [List.length_take, List.length_drop, Nat.lt_min] at hk
  simp only [List.getD_eq_getElem?_getD, List.getElem?_take_of_lt hk.1,
    List.getElem?_drop]

theorem sliceL_length_le {s : List Char} {a b : Nat} (h : b ≤ s.length) :
    (sliceL s a b).length = b - a := by
  unfold sliceL
  simp only [List.length_take, List.length_drop]
  omega

theorem sliceL_append {s : List Char} {a b c : Nat} (h1 : a ≤ b) (h2 : b ≤ c) :
    sliceL s a c = sliceL s a b ++ sliceL s b c := by
  unfold sliceL
  have hc : c - a = (b - a) + (c - b) := by omega
  rw [hc, List.take_add, List.drop_drop]
  have hb : a + (b - a) = b := by omega
  rw [hb]

theorem sliceL_all {s : List Char} {a b : Nat} {Q : Char → Bool}
    (h : ∀ p, a ≤ p → p < b → Q (s.getD p '?') = true) :
    (sliceL s a b).all Q = true := by
  rw [List.all_eq_true]
  intro x hx
  rw [List.mem_iff_getElem] at hx
  obtain ⟨k, hk, hkx⟩ := hx
  have hglt : (sliceL s a b).getD k '?' = x := by
    simp only [List.getD_eq_getElem?_getD, List.getElem?_eq_getElem hk, hkx,
      Option.getD_some]
  rw [← hglt, sliceL_getD '?' hk]
  have hkb : a + k < b := by
    unfold sliceL at hk
    simp only [List.length_take, List.length_drop, Nat.lt_min] at hk
    omega
  exact h (a + k) (Nat.le_add_right _ _) hkb

/-! ### Matcher metatheory -/

theorem mruns_zero {s : List Char} {r : RE} {i : Nat} {caps : Caps} :
    mruns s 0 r i caps = [] := rfl

/-- Every character-class predicate occurring in r entails Q. -/
def REchars (Q : Char → Bool) : RE → Prop
  | .eps => True
  | .bnd => True
  | .char p => ∀ c, p c = true → Q c = true
  | .cat a b => REchars Q a ∧ REchars Q b
  | .alt a b => REchars Q a ∧ REchars Q b
  | .star a => REchars Q a
  | .grp _ a => REchars Q a

/-- r contains no capturing group. -/
def groupFree : RE → Bool
  | .eps => true
  | .bnd => true
  | .char _ => true
  | .cat a b => groupFree a && groupFree b
  | .alt a b => groupFree a && groupFree b
  | .star a => groupFree a
  | .grp _ _ => false

/-- A match never moves the position backwards. -/
theorem mruns_le {s : List Char} :
    ∀ (fuel : Nat) (r : RE) (i : Nat) (caps : Caps) (x : Nat × Caps),
      x ∈ mruns s fuel r i caps → i ≤ x.1 := by
  intro fuel
  induction fuel with
  | zero => intro r i caps x hx; simp [mruns] at hx
  | succ f ih =>
    intro r i caps x hx
    cases r with
    | eps =>
      simp only [mruns, List.mem_singleton] at hx
      subst hx; exact Nat.le_refl _
    | bnd =>
      simp only [mruns] at hx
      split at hx
      · simp only [List.mem_singleton] at hx; subst hx; exact Nat.le_refl _
      · simp at hx
    | char p =>
      simp only [mruns] at hx
      split at hx
      · split at hx
        · simp only [List.mem_singleton] at hx; subst hx; exact Nat.le_succ _
        · simp at hx
      · simp at hx
    | cat a b =>
      simp only [mruns, List.mem_flatMap] at hx
      obtain ⟨y, hy, hx2⟩ := hx
      exact Nat.le_trans (ih a i caps y hy) (ih b y.1 y.2 x hx2)
    | alt a b =>
      simp only [mruns, List.mem_append] at hx
      cases hx with
      | inl h => exact ih a i caps x h
      | inr h => exact ih b i caps x h
    | grp n a =>
      simp only [mruns, List.mem_map] at hx
      obtain ⟨y, hy, hxy⟩ := hx
      have := ih a i caps y hy
      rw [← hxy]
      exact this
    | star a =>
      simp only [mruns, List.mem_append] at hx
      cases hx with
      | inr h => simp only [List.mem_singleton] at h; subst h; exact Nat.le_refl _
      | inl h =>
        simp only [List.mem_flatMap, List.mem_filter] at h
        obtain ⟨y, ⟨hy, _⟩, hx2⟩ := h
        exact Nat.le_trans (ih a i caps y hy) (ih (RE.star a) y.1 y.2 x hx2)

/-- A match never runs past the end of the text. -/
theorem mruns_ub {s : List Char} :
    ∀ (fuel : Nat) (r : RE) (i : Nat) (caps : Caps) (x : Nat × Caps),
      x ∈ mruns s fuel r i caps → i ≤ s.length → x.1 ≤ s.length := by
  intro fuel
  induction fuel with
  | zero => intro r i caps x hx _; simp [mruns] at hx
  | succ f ih =>
    intro r i caps x hx hi
    cases r with
    | eps =>
      simp only [mruns, List.mem_singleton] at hx
      subst hx; exact hi
    | bnd =>
      simp only [mruns] at hx
      split at hx
      · simp only [List.mem_singleton] at hx; subst hx; exact hi
      · simp at hx
    | char p =>
      simp only [mruns] at hx
      split at hx
      · split at hx
        · simp only [List.mem_singleton] at hx
          subst hx
          rename_i hlt _
          exact hlt
        · simp at hx
      · simp at hx
    | cat a b =>
      simp only [mruns, List.mem_flatMap] at hx
      obtain ⟨y, hy, hx2⟩ := hx
      exact ih b y.1 y.2 x hx2 (ih a i caps y hy hi)
    | alt a b =>
      simp only [mruns, List.mem_append] at hx
      cases hx with
      | inl h => exact ih a i caps x h hi
      | inr h => exact ih b i caps x h hi
    | grp n a =>
      simp only [mruns, List.mem_map] at hx
      obtain ⟨y, hy, hxy⟩ := hx
      have := ih a i caps y hy hi
      rw [← hxy]
      exact this
    | star a =>
      simp only [mruns, List.mem_append] at hx
      cases hx with
      | inr h => simp only [List.mem_singleton] at h; subst h; exact hi
      | inl h =>
        simp only [List.mem_flatMap, List.mem_filter] at h
        obtain ⟨y, ⟨hy, _⟩, hx2⟩ := h
        exact ih (RE.star a) y.1 y.2 x hx2 (ih a i caps y hy hi)

end CardParser

namespace CardParser

/-- Every character consumed by a match satisfies any Q entailed by all
character classes of the regex. -/
theorem mruns_chars {s : List Char} {Q : Char → Bool} :
    ∀ (fuel : Nat) (r : RE) (i : Nat) (caps : Caps) (x : Nat × Caps),
      x ∈ mruns s fuel r i caps → REchars Q r →
      ∀ p, i ≤ p → p < x.1 → Q (s.getD p '?') = true := by
  intro fuel
  induction fuel with
  | zero => intro r i caps x hx; simp [mruns] at hx
  | succ f ih =>
    intro r i caps x hx hr p hip hpx
    cases r with
    | eps =>
      simp only [mruns, List.mem_singleton] at hx
      subst hx; omega
    | bnd =>
      simp only [mruns] at hx
      split at hx
      · simp only [List.mem_singleton] at hx; subst hx; omega
      · simp at hx
    | char q =>
      simp only [mruns] at hx
      split at hx
      · split at hx
        · simp only [List.mem_singleton] at hx
          subst hx
          have hpi : p = i := by omega
          subst hpi
          rename_i hq
          exact hr _ hq
        · simp at hx
      · simp at hx
    | cat a b =>
      simp only [mruns, List.mem_flatMap] at hx
      obtain ⟨y, hy, hx2⟩ := hx
      rcases Nat.lt_or_ge p y.1 with hlt | hge
      · exact ih a i caps y hy hr.1 p hip hlt
      · exact ih b y.1 y.2 x hx2 hr.2 p hge hpx
    | alt a b =>
      simp only [mruns, List.mem_append] at hx
      cases hx with
      | inl h => exact ih a i caps x h hr.1 p hip hpx
      | inr h => exact ih b i caps x h hr.2 p hip hpx
    | grp n a =>
      simp only [mruns, List.mem_map] at hx
      obtain ⟨y, hy, hxy⟩ := hx
      have hx1 : x.1 = y.1 := by rw [← hxy]
      rw [hx1] at hpx
      exact ih a i caps y hy hr p hip hpx
    | star a =>
      simp only [mruns, List.mem_append] at hx
      cases hx with
      | inr h => simp only [List.mem_singleton] at h; subst h; omega
      | inl h =>
        simp only [List.mem_flatMap, List.mem_filter] at h
        obtain ⟨y, ⟨hy, _⟩, hx2⟩ := h
        rcases Nat.lt_or_ge p y.1 with hlt | hge
        · exact ih a i caps y hy hr p hip hlt
        · exact ih (RE.star a) y.1 y.2 x hx2 hr p hge hpx

/-- Every capture entry produced by a match lies inside the match
region (or was already present when the match started). -/
theorem mruns_caps {s : List Char} :
    ∀ (fuel : Nat) (r : RE) (i : Nat) (caps : Caps) (x : Nat × Caps),
      x ∈ mruns s fuel r i caps →
      ∀ e, e ∈ x.2 → e ∈ caps ∨ (i ≤ e.2.1 ∧ e.2.1 ≤ e.2.2 ∧ e.2.2 ≤ x.1) := by
  intro fuel
  induction fuel with
  | zero => intro r i caps x hx; simp [mruns] at hx
  | succ f ih =>
    intro r i caps x hx e he
    cases r with
    | eps =>
      simp only [mruns, List.mem_singleton] at hx
      subst hx; exact Or.inl he
    | bnd =>
      simp only [mruns] at hx
      split at hx
      · simp only [List.mem_singleton] at hx; subst hx; exact Or.inl he
      · simp at hx
    | char q =>
      simp only [mruns] at hx
      split at hx
      · split at hx
        · simp only [List.mem_singleton] at hx; subst hx; exact Or.inl he
        · simp at hx
      · simp at hx
    | cat a b =>
      simp only [mruns, List.mem_flatMap] at hx
      obtain ⟨y, hy, hx2⟩ := hx
      rcases ih b y.1 y.2 x hx2 e he with hin | hbnd
      · rcases ih a i caps y hy e hin with hin2 | hbnd2
        · exact Or.inl hin2
        · have hyx : y.1 ≤ x.1 := mruns_le f b y.1 y.2 x hx2
          exact Or.inr ⟨hbnd2.1, hbnd2.2.1, Nat.le_trans hbnd2.2.2 hyx⟩
      · have hiy : i ≤ y.1 := mruns_le f a i caps y hy
        exact Or.inr ⟨Nat.le_trans hiy hbnd.1, hbnd.2.1, hbnd.2.2⟩
    | alt a b =>
      simp only [mruns, List.mem_append] at hx
      cases hx with
      | inl h => exact ih a i caps x h e he
      | inr h => exact ih b i caps x h e he
    | grp n a =>
      simp only [mruns, List.mem_map] at hx
      obtain ⟨y, hy, hxy⟩ := hx
      have hx2 : x.2 = (n, i, y.1) :: y.2 := by rw [← hxy]
      have hx1 : x.1 = y.1 := by rw [← hxy]
      rw [hx2] at he
      rcases List.mem_cons.1 he with he1 | he2
      · subst he1
        refine Or.inr ⟨Nat.le_refl _, mruns_le f a i caps y hy, ?_⟩
        rw [hx1]
      · rcases ih a i caps y hy e he2 with hin | hbnd
        · exact Or.inl hin
        · refine Or.inr ⟨hbnd.1, hbnd.2.1, ?_⟩
          rw [hx1]; exact hbnd.2.2
    | star a =>
      simp only [mruns, List.mem_append] at hx
      cases hx with
      | inr h => simp only [List.mem_singleton] at h; subst h; exact Or.inl he
      | inl h =>
        simp only [List.mem_flatMap, List.mem_filter] at h
        obtain ⟨y, ⟨hy, _⟩, hx2⟩ := h
        rcases ih (RE.star a) y.1 y.2 x hx2 e he with hin | hbnd
        · rcases ih a i caps y hy e hin with hin2 | hbnd2
          · exact Or.inl hin2
          · have hyx : y.1 ≤ x.1 := mruns_le f (RE.star a) y.1 y.2 x hx2
            exact Or.inr ⟨hbnd2.1, hbnd2.2.1, Nat.le_trans hbnd2.2.2 hyx⟩
        · have hiy : i ≤ y.1 := mruns_le f a i caps y hy
          exact Or.inr ⟨Nat.le_trans hiy hbnd.1, hbnd.2.1, hbnd.2.2⟩

/-- A group-free regex leaves the capture store untouched. -/
theorem mruns_groupFree {s : List Char} :
    ∀ (fuel : Nat) (r : RE) (i : Nat) (caps : Caps) (x : Nat × Caps),
      x ∈ mruns s fuel r i caps → groupFree r = true → x.2 = caps := by
  intro fuel
  induction fuel with
  | zero => intro r i caps x hx; simp [mruns] at hx
  | succ f ih =>
    intro r i caps x hx hg
    cases r with
    | eps =>
      simp only [mruns, List.mem_singleton] at hx
      subst hx; rfl
    | bnd =>
      simp only [mruns] at hx
      split at hx
      · simp only [List.mem_singleton] at hx; subst hx; rfl
      · simp at hx
    | char q =>
      simp only [mruns] at hx
      split at hx
      · split at hx
        · simp only [List.mem_singleton] at hx; subst hx; rfl
        · simp at hx
      · simp at hx
    | cat a b =>
      simp only [groupFree, Bool.and_eq_true] at hg
      simp only [mruns, List.mem_flatMap] at hx
      obtain ⟨y, hy, hx2⟩ := hx
      rw [ih b y.1 y.2 x hx2 hg.2, ih a i caps y hy hg.1]
    | alt a b =>
      simp only [groupFree, Bool.and_eq_true] at hg
      simp only [mruns, List.mem_append] at hx
      cases hx with
      | inl h => exact ih a i caps x h hg.1
      | inr h => exact ih b i caps x h hg.2
    | grp n a => simp [groupFree] at hg
    | star a =>
      simp only [groupFree] at hg
      simp only [mruns, List.mem_append] at hx
      cases hx with
      | inr h => simp only [List.mem_singleton] at h; subst h; rfl
      | inl h =>
        simp only [List.mem_flatMap, List.mem_filter] at h
        obtain ⟨y, ⟨hy, _⟩, hx2⟩ := h
        rw [ih (RE.star a) y.1 y.2 x hx2 hg, ih a i caps y hy hg]

end CardParser

namespace CardParser

/-! ### Inversion and introduction lemmas for concrete regexes -/

theorem mruns_cat_ex {s : List Char} {f : Nat} {a b : RE} {i : Nat} {caps : Caps}
    {x : Nat × Caps} (h : x ∈ mruns s f (RE.cat a b) i caps) :
    ∃ f1 y, f = f1 + 1 ∧ y ∈ mruns s f1 a i caps ∧ x ∈ mruns s f1 b y.1 y.2 := by
  cases f with
  | zero => simp [mruns] at h
  | succ f1 =>
    simp only [mruns, List.mem_flatMap] at h
    obtain ⟨y, hy, hx⟩ := h
    exact ⟨f1, y, rfl, hy, hx⟩

theorem mruns_alt_ex {s : List Char} {f : Nat} {a b : RE} {i : Nat} {caps : Caps}
    {x : Nat × Caps} (h : x ∈ mruns s f (RE.alt a b) i caps) :
    ∃ f1, f = f1 + 1 ∧ (x ∈ mruns s f1 a i caps ∨ x ∈ mruns s f1 b i caps) := by
  cases f with
  | zero => simp [mruns] at h
  | succ f1 =>
    simp only [mruns, List.mem_append] at h
    exact ⟨f1, rfl, h⟩

theorem mruns_char_ex {s : List Char} {f : Nat} {p : Char → Bool} {i : Nat}
    {caps : Caps} {x : Nat × Caps} (h : x ∈ mruns s f (RE.char p) i caps) :
    i < s.length ∧ p (s.getD i '?') = true ∧ x = (i + 1, caps) := by
  cases f with
  | zero => simp [mruns] at h
  | succ f1 =>
    simp only [mruns] at h
    split at h
    · split at h
      · simp only [List.mem_singleton] at h
        rename_i h1 h2
        exact ⟨h1, h2, h⟩
      · simp at h
    · simp at h

theorem mruns_eps_ex {s : List Char} {f : Nat} {i : Nat} {caps : Caps}
    {x : Nat × Caps} (h : x ∈ mruns s f RE.eps i caps) : x = (i, caps) := by
  cases f with
  | zero => simp [mruns] at h
  | succ f1 => simpa only [mruns, List.mem_singleton] using h

theorem mruns_bnd_ex {s : List Char} {f : Nat} {i : Nat} {caps : Caps}
    {x : Nat × Caps} (h : x ∈ mruns s f RE.bnd i caps) : x = (i, caps) := by
  cases f with
  | zero => simp [mruns] at h
  | succ f1 =>
    simp only [mruns] at h
    split at h
    · simpa only [List.mem_singleton] using h
    · simp at h

theorem mruns_grp_ex {s : List Char} {f : Nat} {n : Nat} {a : RE} {i : Nat}
    {caps : Caps} {x : Nat × Caps} (h : x ∈ mruns s f (RE.grp n a) i caps) :
    ∃ f1 y, f = f1 + 1 ∧ y ∈ mruns s f1 a i caps ∧ x = (y.1, (n, i, y.1) :: y.2) := by
  cases f with
  | zero => simp [mruns] at h
  | succ f1 =>
    simp only [mruns, List.mem_map] at h
    obtain ⟨y, hy, hx⟩ := h
    exact ⟨f1, y, rfl, hy, hx.symm⟩

/-- A match of a literal reproduces the literal in the text. -/
theorem mruns_litL_ex {s : List Char} :
    ∀ (cs : List Char) (f : Nat) (i : Nat) (caps : Caps) (x : Nat × Caps),
      x ∈ mruns s f (litL cs) i caps →
      x = (i + cs.length, caps) ∧ sliceL s i (i + cs.length) = cs := by
  intro cs
  induction cs with
  | nil =>
    intro f i caps x hx
    have := @mruns_eps_ex s f i caps x hx
    subst this
    constructor
    · simp
    · simp [sliceL]
  | cons c cs ih =>
    intro f i caps x hx
    obtain ⟨f1, y, hf, hy, hx2⟩ := mruns_cat_ex hx
    obtain ⟨hlt, hp, hyv⟩ := mruns_char_ex hy
    subst hyv
    obtain ⟨hxv, hsl⟩ := ih f1 (i + 1) caps x hx2
    rw [beq_iff_eq] at hp
    constructor
    · rw [hxv, List.length_cons]
      have harith : i + 1 + cs.length = i + (cs.length + 1) := by omega
      rw [harith]
    · have hexp : sliceL s i (i + (c :: cs).length)
          = s.getD i '?' :: sliceL s (i + 1) (i + 1 + cs.length) := by
        unfold sliceL
        have h1 : i + (c :: cs).length - i = cs.length + 1 := by
          simp only [List.length_cons]
          omega
        have h2 : i + 1 + cs.length - (i + 1) = cs.length := by omega
        rw [h1, h2]
        have hdrop : s.drop i = s.getD i '?' :: s.drop (i + 1) := by
          rw [List.getD_eq_getElem?_getD, List.getElem?_eq_getElem hlt]
          simp only [Option.getD_some]
          rw [List.drop_eq_getElem_cons hlt]
        rw [hdrop, List.take_succ_cons]
      rw [hexp, hp, hsl]

end CardParser

namespace CardParser

/-- Induction principle for star matches: any relation that holds
reflexively and is extended by one body match on the left covers every
star match. -/
theorem mruns_star_ind {s : List Char} {a : RE} (Q : Nat → Nat → Prop)
    (base : ∀ i, Q i i)
    (step : ∀ i j k, (∃ f caps y, y ∈ mruns s f a i caps ∧ y.1 = j) →
      Q j k → Q i k) :
    ∀ (fuel : Nat) (i : Nat) (caps : Caps) (x : Nat × Caps),
      x ∈ mruns s fuel (RE.star a) i caps → Q i x.1 := by
  intro fuel
  induction fuel with
  | zero => intro i caps x hx; simp [mruns] at hx
  | succ f ih =>
    intro i caps x hx
    simp only [mruns, List.mem_append] at hx
    cases hx with
    | inr h => simp only [List.mem_singleton] at h; subst h; exact base i
    | inl h =>
      simp only [List.mem_flatMap, List.mem_filter] at h
      obtain ⟨y, ⟨hy, _⟩, hx2⟩ := h
      exact step i y.1 x.1 ⟨f, caps, y, hy, rfl⟩ (ih y.1 y.2 x hx2)

/-! ### Introduction lemmas (used to build witnesses of matches) -/

theorem mruns_eps_in {s : List Char} {f i : Nat} {caps : Caps} :
    (i, caps) ∈ mruns s (f + 1) RE.eps i caps := by
  simp [mruns]

theorem mruns_char_in {s : List Char} {f i : Nat} {caps : Caps} {p : Char → Bool}
    (h1 : i < s.length) (h2 : p (s.getD i '?') = true) :
    (i + 1, caps) ∈ mruns s (f + 1) (RE.char p) i caps := by
  simp only [mruns]
  rw [if_pos h1, if_pos h2]
  exact List.mem_singleton.2 rfl

theorem mruns_cat_in {s : List Char} {f i : Nat} {caps : Caps} {a b : RE}
    {y x : Nat × Caps} (h1 : y ∈ mruns s f a i caps)
    (h2 : x ∈ mruns s f b y.1 y.2) :
    x ∈ mruns s (f + 1) (RE.cat a b) i caps := by
  simp only [mruns, List.mem_flatMap]
  exact ⟨y, h1, h2⟩

theorem mruns_alt_inl {s : List Char} {f i : Nat} {caps : Caps} {a b : RE}
    {x : Nat × Caps} (h : x ∈ mruns s f a i caps) :
    x ∈ mruns s (f + 1) (RE.alt a b) i caps := by
  simp only [mruns, List.mem_append]
  exact Or.inl h

theorem mruns_alt_inr {s : List Char} {f i : Nat} {caps : Caps} {a b : RE}
    {x : Nat × Caps} (h : x ∈ mruns s f b i caps) :
    x ∈ mruns s (f + 1) (RE.alt a b) i caps := by
  simp only [mruns, List.mem_append]
  exact Or.inr h

theorem mruns_star_stop {s : List Char} {f i : Nat} {caps : Caps} {a : RE} :
    (i, caps) ∈ mruns s (f + 1) (RE.star a) i caps := by
  simp [mruns]

theorem mruns_grp_in {s : List Char} {f i : Nat} {caps : Caps} {n : Nat} {a : RE}
    {y : Nat × Caps} (h : y ∈ mruns s f a i caps) :
    (y.1, (n, i, y.1) :: y.2) ∈ mruns s (f + 1) (RE.grp n a) i caps := by
  simp only [mruns, List.mem_map]
  exact ⟨y, h, rfl⟩

/-! ### Search and finditer facts -/

theorem searchFrom_some {s : List Char} {r : RE} :
    ∀ (cnt i : Nat) (m : PyMatch), searchFrom s r cnt i = some m →
      i ≤ m.st ∧ m.st < i + cnt ∧
        (m.en, m.caps) ∈ mruns s (fuelFor s r) r m.st [] := by
  intro cnt
  induction cnt with
  | zero => intro i m h; simp [searchFrom] at h
  | succ c ih =>
    intro i m h
    simp only [searchFrom] at h
    split at h
    · rename_i heq
      obtain ⟨h1, h2, h3⟩ := ih (i + 1) m h
      exact ⟨by omega, by omega, h3⟩
    · rename_i x rest heq
      cases h
      refine ⟨Nat.le_refl _, ?_, ?_⟩
      · show i < i + (c + 1)
        omega
      · show (x.1, x.2) ∈ mruns s (fuelFor s r) r i []
        rw [heq]
        exact List.mem_cons_self _ _

theorem searchFrom_none {s : List Char} {r : RE} :
    ∀ (cnt i : Nat), searchFrom s r cnt i = none →
      ∀ q, i ≤ q → q < i + cnt → mruns s (fuelFor s r) r q [] = [] := by
  intro cnt
  induction cnt with
  | zero => intro i h q h1 h2; omega
  | succ c ih =>
    intro i h q h1 h2
    simp only [searchFrom] at h
    split at h
    · rename_i heq
      rcases Nat.eq_or_lt_of_le h1 with he | hlt
      · rw [← he]; exact heq
      · exact ih (i + 1) h q hlt (by omega)
    · exact absurd h (by simp)

theorem reSearch_some {s : List Char} {r : RE} {m : PyMatch}
    (h : reSearch s r = some m) :
    m.st ≤ s.length ∧ (m.en, m.caps) ∈ mruns s (fuelFor s r) r m.st [] := by
  obtain ⟨h1, h2, h3⟩ := searchFrom_some (s.length + 1) 0 m h
  exact ⟨by omega, h3⟩

theorem finditerAux_mem {s : List Char} {r : RE} :
    ∀ (cnt pos : Nat) (m : PyMatch), m ∈ finditerAux s r cnt pos →
      m.st ≤ s.length ∧ (m.en, m.caps) ∈ mruns s (fuelFor s r) r m.st [] := by
  intro cnt
  induction cnt with
  | zero => intro pos m h; simp [finditerAux] at h
  | succ c ih =>
    intro pos m h
    simp only [finditerAux] at h
    split at h
    · simp at h
    · rename_i m2 heq
      rcases List.mem_cons.1 h with he | htl
      · subst he
        obtain ⟨h1, h2, h3⟩ := searchFrom_some _ _ _ heq
        exact ⟨by omega, h3⟩
      · exact ih _ m htl

theorem reFinditer_mem {s : List Char} {r : RE} {m : PyMatch}
    (h : m ∈ reFinditer s r) :
    m.st ≤ s.length ∧ (m.en, m.caps) ∈ mruns s (fuelFor s r) r m.st [] :=
  finditerAux_mem _ _ m h

/-- If the scan finds nothing, no position of the text matches. -/
theorem reFinditer_nil {s : List Char} {r : RE} (h : reFinditer s r = []) :
    ∀ q, q ≤ s.length → mruns s (fuelFor s r) r q [] = [] := by
  intro q hq
  unfold reFinditer finditerAux at h
  revert h
  split
  · rename_i heq
    intro _
    exact searchFrom_none _ _ heq q (Nat.zero_le _) (by omega)
  · intro h
    simp at h

end CardParser

namespace CardParser

/-! ### REchars builders -/

theorem REchars_litL {Q : Char → Bool} :
    ∀ cs : List Char, (∀ c ∈ cs, Q c = true) → REchars Q (litL cs) := by
  intro cs
  induction cs with
  | nil => intro _; exact trivial
  | cons c cs ih =>
    intro h
    refine ⟨?_, ih (fun x hx => h x (List.mem_cons_of_mem _ hx))⟩
    intro x hx
    rw [beq_iff_eq] at hx
    subst hx
    exact h x (List.mem_cons_self _ _)

theorem REchars_repN {Q : Char → Bool} {a : RE} (h : REchars Q a) :
    ∀ n, REchars Q (repN a n) := by
  intro n
  induction n with
  | zero => exact trivial
  | succ n ih => exact ⟨h, ih⟩

theorem REchars_optUpTo {Q : Char → Bool} {a : RE} (h : REchars Q a) :
    ∀ n, REchars Q (optUpTo a n) := by
  intro n
  induction n with
  | zero => exact trivial
  | succ n ih => exact ⟨⟨h, ih⟩, trivial⟩

theorem REchars_repRange {Q : Char → Bool} {a : RE} (h : REchars Q a)
    (lo hi : Nat) : REchars Q (repRange a lo hi) :=
  ⟨REchars_repN h lo, REchars_optUpTo h (hi - lo)⟩

/-- No character class of the Name-label regex admits a digit. -/
theorem REchars_nameRE : REchars (fun c => !isDigitCh c) nameRE := by
  refine ⟨trivial, REchars_litL _ (by decide), ?_, ?_, ?_, ?_, ?_⟩
  · intro c h
    rw [Bool.not_eq_true']
    exact notDigit_of_isSpaceCh h
  · intro c h
    rw [Bool.not_eq_true']
    exact notDigit_of_isColonDash h
  · intro c h
    rw [Bool.not_eq_true']
    exact notDigit_of_isSpaceCh h
  · intro c h
    rw [Bool.not_eq_true']
    exact notDigit_of_isUpperCh h
  · refine REchars_repRange ?_ 2 100
    intro c h
    rw [Bool.not_eq_true']
    exact notDigit_of_isNameCh h

/-- No character class of the Customer Name regex admits a digit. -/
theorem REchars_custNameRE : REchars (fun c => !isDigitCh c) custNameRE := by
  have hsp : REchars (fun c => !isDigitCh c) (RE.char isSpaceCh) := by
    intro c h
    rw [Bool.not_eq_true']
    exact notDigit_of_isSpaceCh h
  refine ⟨trivial, REchars_litL _ (by decide), ⟨hsp, hsp⟩,
    REchars_litL _ (by decide), hsp, ⟨?_, trivial⟩, hsp, ?_, ?_⟩
  · intro c h
    rw [Bool.not_eq_true']
    exact notDigit_of_isColonDash h
  · intro c h
    rw [Bool.not_eq_true']
    exact notDigit_of_isUpperCh h
  · refine REchars_repRange ?_ 2 100
    intro c h
    rw [Bool.not_eq_true']
    exact notDigit_of_isNameCh h

/-! ### Helper facts for name extraction -/

theorem sliceL_mem_getD {s : List Char} {a b : Nat} {x : Char}
    (h : x ∈ sliceL s a b) : ∃ p, a ≤ p ∧ p < b ∧ s.getD p '?' = x := by
  rw [List.mem_iff_getElem] at h
  obtain ⟨k, hk, hkx⟩ := h
  have hg : (sliceL s a b).getD k '?' = x := by
    simp only [List.getD_eq_getElem?_getD, List.getElem?_eq_getElem hk, hkx,
      Option.getD_some]
  have hkb : a + k < b := by
    unfold sliceL at hk
    simp only [List.length_take, List.length_drop, Nat.lt_min] at hk
    omega
  exact ⟨a + k, Nat.le_add_right _ _, hkb, by rw [← sliceL_getD '?' hk, hg]⟩

theorem mem_pyStripL {l : List Char} {c : Char} (h : c ∈ pyStripL l) : c ∈ l := by
  unfold pyStripL at h
  rw [List.mem_reverse] at h
  have h2 := List.dropWhile_subset _ h
  rw [List.mem_reverse] at h2
  exact List.dropWhile_subset _ h2

/-- A group-1 capture of a search with a digit-free regex, stripped,
has no digit. -/
theorem label_capture_no_digit {textC : List Char} {r : RE}
    (hr : REchars (fun c => !isDigitCh c) r) {nm : PyMatch} {g : String}
    (hs : reSearch textC r = some nm) (hg : grpStr textC nm 1 = some g) :
    ∀ c ∈ (pyStripStr g).data, isDigitCh c = false := by
  intro c hc
  obtain ⟨hstle, hmem⟩ := reSearch_some hs
  unfold grpStr capLookup at hg
  cases hfind : nm.caps.find? (fun e => e.1 == 1) with
  | none => rw [hfind] at hg; simp at hg
  | some e =>
    rw [hfind] at hg
    simp at hg
    have hemem : e ∈ nm.caps := List.mem_of_find?_eq_some hfind
    have hbounds := mruns_caps _ r nm.st [] (nm.en, nm.caps) hmem e hemem
    rcases hbounds with hin | ⟨hb1, hb2, hb3⟩
    · simp at hin
    · have hgd : g = (⟨sliceL textC e.2.1 e.2.2⟩ : String) := hg.symm
      have hcg : c ∈ pyStripL g.data := hc
      have hcs : c ∈ sliceL textC e.2.1 e.2.2 := by
        have := mem_pyStripL hcg
        rw [hgd] at this
        exact this
      obtain ⟨p, hp1, hp2, hp3⟩ := sliceL_mem_getD hcs
      have := mruns_chars _ r nm.st [] (nm.en, nm.caps) hmem hr p
        (Nat.le_trans hb1 hp1) (Nat.lt_of_lt_of_le hp2 hb3)
      rw [hp3] at this
      rw [Bool.not_eq_true'] at this
      exact this

/-- The fallback line scan only returns lines with no digit. -/
theorem fallbackNameScan_no_digit {textC : List Char} {n : String}
    (h : fallbackNameScan textC = some n) : ∀ c ∈ n.data, isDigitCh c = false := by
  unfold fallbackNameScan at h
  obtain ⟨line, _, hline⟩ := List.exists_of_findSome?_eq_some h
  dsimp only at hline
  by_cases h1 : (pyStripL line).isEmpty = true
  · rw [if_pos h1] at hline; simp at hline
  rw [if_neg h1] at hline
  by_cases h2 : (pyStripL line).any isDigitCh = true
  · rw [if_pos h2] at hline; simp at hline
  rw [if_neg h2] at hline
  by_cases h3 : 1 < (wordsOf (pyStripL line)).length ∧
      (wordsOf (pyStripL line)).length ≤ 5
  · rw [if_pos h3] at hline
    by_cases h4 : 1 ≤ (List.filter wordShape (wordsOf (pyStripL line))).length
    · rw [if_pos h4] at hline
      by_cases h5 : badTermsCheck (pyStripL line) = true
      · rw [if_pos h5] at hline; simp at hline
      · rw [if_neg h5] at hline
        simp only [Option.some.injEq] at hline
        subst hline
        intro c hc
        have h2f : (pyStripL line).any isDigitCh = false := by
          revert h2; cases (pyStripL line).any isDigitCh <;> simp
        rw [List.any_eq_false] at h2f
        have := h2f c hc
        revert this; cases isDigitCh c <;> simp
    · rw [if_neg h4] at hline; simp at hline
  · rw [if_neg h3] at hline; simp at hline

end CardParser

namespace CardParser

/-- C10: cardholder_name, when present, contains no digit character:
the two label-based captures admit only uppercase letters, whitespace,
periods and hyphens (and the digit-free label text), and the fallback
line scan skips any line containing a digit. -/
theorem claim_C10_name_no_digit (t : String) (n : String)
    (h : (extract_datapoints_from_text t).cardholder_name = some n) :
    ∀ c ∈ n.data, isDigitCh c = false := by
  have h9 : nameField t.data = some n := h
  unfold nameField at h9
  cases hs1 : reSearch t.data nameRE with
  | some nm =>
    rw [hs1] at h9
    dsimp only at h9
    cases hg : grpStr t.data nm 1 with
    | some g =>
      rw [hg] at h9
      dsimp only [Option.map] at h9
      by_cases hfal : optFalsy (some (pyStripStr g)) = true
      · rw [if_pos hfal] at h9
        cases hf : fallbackNameScan t.data with
        | some l =>
          rw [hf] at h9
          simp only [Option.some.injEq] at h9
          subst h9
          exact fallbackNameScan_no_digit hf
        | none =>
          rw [hf] at h9
          simp only [Option.some.injEq] at h9
          subst h9
          exact label_capture_no_digit REchars_nameRE hs1 hg
      · rw [if_neg hfal] at h9
        simp only [Option.some.injEq] at h9
        subst h9
        exact label_capture_no_digit REchars_nameRE hs1 hg
    | none =>
      rw [hg] at h9
      dsimp only [Option.map] at h9
      rw [if_pos (show optFalsy (none : Option String) = true from rfl)] at h9
      cases hf : fallbackNameScan t.data with
      | some l =>
        rw [hf] at h9
        simp only [Option.some.injEq] at h9
        subst h9
        exact fallbackNameScan_no_digit hf
      | none => rw [hf] at h9; simp at h9
  | none =>
    rw [hs1] at h9
    dsimp only at h9
    cases hs2 : reSearch t.data custNameRE with
    | some nm =>
      rw [hs2] at h9
      dsimp only at h9
      cases hg : grpStr t.data nm 1 with
      | some g =>
        rw [hg] at h9
        dsimp only [Option.map] at h9
        by_cases hfal : optFalsy (some (pyStripStr g)) = true
        · rw [if_pos hfal] at h9
          cases hf : fallbackNameScan t.data with
          | some l =>
            rw [hf] at h9
            simp only [Option.some.injEq] at h9
            subst h9
            exact fallbackNameScan_no_digit hf
          | none =>
            rw [hf] at h9
            simp only [Option.some.injEq] at h9
            subst h9
            exact label_capture_no_digit REchars_custNameRE hs2 hg
        · rw [if_neg hfal] at h9
          simp only [Option.some.injEq] at h9
          subst h9
          exact label_capture_no_digit REchars_custNameRE hs2 hg
      | none =>
        rw [hg] at h9
        dsimp only [Option.map] at h9
        rw [if_pos (show optFalsy (none : Option String) = true from rfl)] at h9
        cases hf : fallbackNameScan t.data with
        | some l =>
          rw [hf] at h9
          simp only [Option.some.injEq] at h9
          subst h9
          exact fallbackNameScan_no_digit hf
        | none => rw [hf] at h9; simp at h9
    | none =>
      rw [hs2] at h9
      dsimp only at h9
      rw [if_pos (show optFalsy (none : Option String) = true from rfl)] at h9
      cases hf : fallbackNameScan t.data with
      | some l =>
        rw [hf] at h9
        simp only [Option.some.injEq] at h9
        subst h9
        exact fallbackNameScan_no_digit hf
      | none => rw [hf] at h9; simp at h9

/-- C10 witness: the no-digit theorem applied at a concrete input with
a present cardholder name, evaluated at its first character. -/
theorem claim_C10_witness : isDigitCh 'J' = false :=
  claim_C10_name_no_digit "Name: JOHN SMITH" "JOHN SMITH" (by decide) 'J'
    (by decide)

end CardParser


namespace CardParser

/-! ### Decimal shape of AMOUNT_RE captures (claim C8) -/

theorem takeWhile_all {p : Char → Bool} :
    ∀ l : List Char, (∀ c ∈ l, p c = true) → l.takeWhile p = l := by
  intro l
  induction l with
  | nil => intro _; rfl
  | cons c cs ih =>
    intro h
    rw [List.takeWhile_cons_of_pos (h c (List.mem_cons_self _ _))]
    rw [ih (fun x hx => h x (List.mem_cons_of_mem _ hx))]

theorem splitOnCh_no {ch : Char} {l : List Char} (h : ∀ c ∈ l, c ≠ ch) :
    ∀ f, l.length + 1 ≤ f → splitOnCh ch f l = [l] := by
  intro f hf
  cases f with
  | zero => omega
  | succ f1 =>
    simp only [splitOnCh]
    rw [takeWhile_all l (fun c hc => decide_eq_true (h c hc))]
    rw [List.drop_length]

theorem splitOnCh_mid {ch : Char} {a b : List Char} (ha : ∀ c ∈ a, c ≠ ch)
    (hb : ∀ c ∈ b, c ≠ ch) : ∀ f, a.length + b.length + 2 ≤ f →
    splitOnCh ch f (a ++ ch :: b) = [a, b] := by
  intro f hf
  cases f with
  | zero => omega
  | succ f1 =>
    simp only [splitOnCh]
    have htw : (a ++ ch :: b).takeWhile (fun c => decide (c ≠ ch)) = a := by
      rw [List.takeWhile_append_of_pos (fun c hc => decide_eq_true (ha c hc))]
      rw [List.takeWhile_cons_of_neg (by simp)]
      rw [List.append_nil]
    rw [htw, List.drop_left]
    have hlen : b.length + 1 ≤ f1 := by omega
    show a :: splitOnCh ch f1 b = [a, b]
    rw [splitOnCh_no hb f1 hlen]

theorem isDecimalString_eq (l : List Char) :
    isDecimalString (⟨l⟩ : String) =
      (match splitOnCh '.' (l.length + 1) l with
        | [a] => digitsB a
        | [a, b] => digitsB a && digitsB b
        | _ => false) := rfl

/-- Assembling the decimal-string property from the three regions of an
amount capture: a nonempty digit head, a digits-and-commas middle, and
an optional point-digits tail. -/
theorem isDecimal_concat {A B C : List Char}
    (hA1 : A ≠ []) (hA2 : ∀ c ∈ A, isDigitCh c = true)
    (hB : ∀ c ∈ B, isDigitCh c = true ∨ c = ',')
    (hC : C = [] ∨ ∃ D, C = '.' :: D ∧ D ≠ [] ∧ ∀ c ∈ D, isDigitCh c = true) :
    isDecimalString (⟨stripCommaL (A ++ B ++ C)⟩ : String) = true := by
  have hAf : stripCommaL A = A :=
    List.filter_eq_self.2 (fun c hc =>
      decide_eq_true (ne_comma_of_digit (hA2 c hc)))
  have hBf : ∀ c ∈ stripCommaL B, isDigitCh c = true := by
    intro c hc
    rw [stripCommaL, List.mem_filter] at hc
    rcases hB c hc.1 with hd | he
    · exact hd
    · exfalso
      have h2 := hc.2
      rw [he] at h2
      simp at h2
  have hE1 : A ++ stripCommaL B ≠ [] := by
    intro hcon
    exact hA1 (List.append_eq_nil.1 hcon).1
  have hE2 : ∀ c ∈ A ++ stripCommaL B, isDigitCh c = true := by
    intro c hc
    rw [List.mem_append] at hc
    rcases hc with h | h
    · exact hA2 c h
    · exact hBf c h
  have hEd : digitsB (A ++ stripCommaL B) = true := by
    rw [digitsB, Bool.and_eq_true, Bool.not_eq_true', List.isEmpty_eq_false,
      List.all_eq_true]
    exact ⟨hE1, hE2⟩
  have hEnd : ∀ c ∈ A ++ stripCommaL B, c ≠ '.' := by
    intro c hc he
    have h2 := hE2 c hc
    rw [he] at h2
    exact absurd h2 (by decide)
  rcases hC with hCe | ⟨D, hCD, hD1, hD2⟩
  · subst hCe
    have hlist : stripCommaL (A ++ B ++ []) = A ++ stripCommaL B := by
      rw [List.append_nil, stripCommaL, List.filter_append]
      rw [← stripCommaL, ← stripCommaL, hAf]
    rw [hlist, isDecimalString_eq]
    rw [splitOnCh_no hEnd _ (Nat.le_refl _)]
    show digitsB (A ++ stripCommaL B) = true
    exact hEd
  · subst hCD
    have hDf : stripCommaL ('.' :: D) = '.' :: D :=
      List.filter_eq_self.2 (by
        intro c hc
        rcases List.mem_cons.1 hc with he | hm
        · subst he; decide
        · exact decide_eq_true (ne_comma_of_digit (hD2 c hm)))
    have hlist : stripCommaL (A ++ B ++ '.' :: D)
        = (A ++ stripCommaL B) ++ '.' :: D := by
      rw [stripCommaL, List.filter_append, List.filter_append]
      rw [← stripCommaL, ← stripCommaL, ← stripCommaL, hAf, hDf]
    have hDnd : ∀ c ∈ D, c ≠ '.' := by
      intro c hc he
      have h2 := hD2 c hc
      rw [he] at h2
      exact absurd h2 (by decide)
    have hDd : digitsB D = true := by
      rw [digitsB, Bool.and_eq_true, Bool.not_eq_true', List.isEmpty_eq_false,
        List.all_eq_true]
      exact ⟨hD1, hD2⟩
    rw [hlist, isDecimalString_eq]
    have hcnt : (A ++ stripCommaL B).length + D.length + 2 ≤
        ((A ++ stripCommaL B) ++ '.' :: D).length + 1 := by
      simp only [List.length_append, List.length_cons]
      omega
    rw [splitOnCh_mid hEnd hDnd _ hcnt]
    show (digitsB (A ++ stripCommaL B) && digitsB D) = true
    rw [hEd, hDd]
    rfl

end CardParser

namespace CardParser

theorem sliceL_same {s : List Char} {a : Nat} : sliceL s a a = [] := by
  unfold sliceL
  rw [Nat.sub_self]
  exact List.take_zero _

theorem sliceL_one {s : List Char} {i : Nat} (h : i < s.length) :
    sliceL s i (i + 1) = [s.getD i '?'] := by
  unfold sliceL
  have h1 : i + 1 - i = 1 := by omega
  rw [h1, List.drop_eq_getElem_cons h, List.take_succ_cons, List.take_zero]
  rw [List.getD_eq_getElem?_getD, List.getElem?_eq_getElem h]
  rfl

theorem sliceL_ne_nil {s : List Char} {a b : Nat} (h1 : a < b)
    (h2 : b ≤ s.length) : sliceL s a b ≠ [] := by
  have hl : (sliceL s a b).length = b - a := sliceL_length_le h2
  intro hc
  rw [hc] at hl
  simp only [List.length_nil] at hl
  omega

/-- The region of a \d+ match: nonempty and all digits. -/
theorem rplus_digits {w : List Char} {f i : Nat} {caps : Caps} {x : Nat × Caps}
    (h : x ∈ mruns w f (rplus dCh) i caps) :
    i < x.1 ∧ ∀ p, i ≤ p → p < x.1 → isDigitCh (w.getD p '?') = true := by
  have hch : REchars isDigitCh (rplus dCh) :=
    ⟨fun _ hc => hc, fun _ hc => hc⟩
  obtain ⟨f1, y, _, hy, hx2⟩ := mruns_cat_ex h
  obtain ⟨_, _, hyv⟩ := mruns_char_ex hy
  have h2 := mruns_le f1 _ y.1 y.2 x hx2
  rw [hyv] at h2
  exact ⟨by omega, mruns_chars f (rplus dCh) i caps x h hch⟩

/-- The region of a (?:\.\d+)? match: empty, or a point followed by a
nonempty digit run. -/
theorem fracOpt_shape {w : List Char} {f i : Nat} {caps : Caps} {x : Nat × Caps}
    (h : x ∈ mruns w f fracOptRE i caps) :
    x.1 = i ∨ (i < w.length ∧ w.getD i '?' = '.' ∧ i + 1 < x.1 ∧
      ∀ p, i + 1 ≤ p → p < x.1 → isDigitCh (w.getD p '?') = true) := by
  obtain ⟨f1, _, hcase⟩ := mruns_alt_ex h
  rcases hcase with hl | hr
  · right
    obtain ⟨f2, y, _, hy, hx2⟩ := mruns_cat_ex hl
    obtain ⟨hlt, hp, hyv⟩ := mruns_char_ex hy
    simp only [beq_iff_eq] at hp
    rw [hyv] at hx2
    obtain ⟨hlt2, hdig⟩ := rplus_digits hx2
    exact ⟨hlt, hp, hlt2, hdig⟩
  · left
    rw [mruns_eps_ex hr]

/-- The region of a [0-9]{1,3} match: nonempty and all digits. -/
theorem repRange13_digits {w : List Char} {f i : Nat} {caps : Caps}
    {x : Nat × Caps} (h : x ∈ mruns w f (repRange dCh 1 3) i caps) :
    i < x.1 ∧ ∀ p, i ≤ p → p < x.1 → isDigitCh (w.getD p '?') = true := by
  have hch : REchars isDigitCh (repRange dCh 1 3) :=
    @REchars_repRange isDigitCh dCh (fun _ hc => hc) 1 3
  refine ⟨?_, mruns_chars f (repRange dCh 1 3) i caps x h hch⟩
  obtain ⟨f1, y, _, hy, hx2⟩ := mruns_cat_ex h
  obtain ⟨f2, z, _, hz, hy2⟩ := mruns_cat_ex hy
  obtain ⟨_, _, hzv⟩ := mruns_char_ex hz
  have hyz := mruns_eps_ex hy2
  have h1 := mruns_le f1 _ y.1 y.2 x hx2
  rw [hyz, hzv] at h1
  omega

/-- Decimal shape of the captured numeral of AMOUNT_RE: both
alternatives of the group produce, after stripping commas, a decimal
number string. -/
theorem numAlt_decimal {w : List Char} {f g0 : Nat} {caps : Caps} {x : Nat × Caps}
    (h : x ∈ mruns w f (RE.alt amountNumA amountNumB) g0 caps)
    (hw : g0 ≤ w.length) :
    isDecimalString (⟨stripCommaL (sliceL w g0 x.1)⟩ : String) = true := by
  obtain ⟨f1, hf, hcase⟩ := mruns_alt_ex h
  rcases hcase with hA | hB
  · -- [0-9]{1,3}(?:,[0-9]{3})*(?:\.\d+)?
    obtain ⟨f2, y1, _, hy1, hrest⟩ := mruns_cat_ex hA
    obtain ⟨f3, y2, _, hy2, hy3⟩ := mruns_cat_ex hrest
    have hub : x.1 ≤ w.length := mruns_ub f1 _ g0 caps x hA hw
    have hm1 := repRange13_digits hy1
    have h12 : y1.1 ≤ y2.1 := mruns_le f3 _ y1.1 y1.2 y2 hy2
    have h23 : y2.1 ≤ x.1 := mruns_le f3 _ y2.1 y2.2 x hy3
    have hQmid : REchars (fun c => isDigitCh c || c == ',')
        (RE.star (RE.cat (RE.char (fun c => c == ',')) (repN dCh 3))) := by
      refine ⟨?_, REchars_repN ?_ 3⟩
      · intro c hc
        simp only [beq_iff_eq] at hc
        subst hc
        decide
      · intro c hc
        show (isDigitCh c || c == ',') = true
        rw [hc]
        rfl
    have hmidQ := mruns_chars f3 _ y1.1 y1.2 y2 hy2 hQmid
    have hfrac := fracOpt_shape hy3
    have hsplit : sliceL w g0 x.1
        = (sliceL w g0 y1.1 ++ sliceL w y1.1 y2.1) ++ sliceL w y2.1 x.1 := by
      rw [← sliceL_append (Nat.le_of_lt hm1.1) h12]
      rw [← sliceL_append (Nat.le_trans (Nat.le_of_lt hm1.1) h12) h23]
    rw [hsplit]
    apply isDecimal_concat
    · exact sliceL_ne_nil hm1.1 (by omega)
    · intro c hc
      obtain ⟨p, hp1, hp2, hp3⟩ := sliceL_mem_getD hc
      rw [← hp3]
      exact hm1.2 p hp1 hp2
    · intro c hc
      obtain ⟨p, hp1, hp2, hp3⟩ := sliceL_mem_getD hc
      have hq := hmidQ p hp1 hp2
      rw [hp3] at hq
      simp only [Bool.or_eq_true, beq_iff_eq] at hq
      rcases hq with hd | he
      · exact Or.inl hd
      · exact Or.inr he
    · rcases hfrac with he | ⟨hlt, hdot, hlt2, hdig⟩
      · left
        rw [he]
        exact sliceL_same
      · right
        refine ⟨sliceL w (y2.1 + 1) x.1, ?_, ?_, ?_⟩
        · rw [sliceL_append (Nat.le_succ _) (by omega), sliceL_one hlt, hdot]
          rfl
        · exact sliceL_ne_nil (by omega) (by omega)
        · intro c hc
          obtain ⟨p, hp1, hp2, hp3⟩ := sliceL_mem_getD hc
          rw [← hp3]
          exact hdig p hp1 hp2
  · -- \d+(?:\.\d+)?
    obtain ⟨f2, y1, _, hy1, hy3⟩ := mruns_cat_ex hB
    have hub : x.1 ≤ w.length := mruns_ub f1 _ g0 caps x hB hw
    have hm1 := rplus_digits hy1
    have h13 : y1.1 ≤ x.1 := mruns_le f2 _ y1.1 y1.2 x hy3
    have hfrac := fracOpt_shape hy3
    have hsplit : sliceL w g0 x.1
        = (sliceL w g0 y1.1 ++ []) ++ sliceL w y1.1 x.1 := by
      rw [List.append_nil]
      rw [← sliceL_append (Nat.le_of_lt hm1.1) h13]
    rw [hsplit]
    apply isDecimal_concat
    · exact sliceL_ne_nil hm1.1 (by omega)
    · intro c hc
      obtain ⟨p, hp1, hp2, hp3⟩ := sliceL_mem_getD hc
      rw [← hp3]
      exact hm1.2 p hp1 hp2
    · intro c hc
      simp at hc
    · rcases hfrac with he | ⟨hlt, hdot, hlt2, hdig⟩
      · left
        rw [he]
        exact sliceL_same
      · right
        refine ⟨sliceL w (y1.1 + 1) x.1, ?_, ?_, ?_⟩
        · rw [sliceL_append (Nat.le_succ _) (by omega), sliceL_one hlt, hdot]
          rfl
        · exact sliceL_ne_nil (by omega) (by omega)
        · intro c hc
          obtain ⟨p, hp1, hp2, hp3⟩ := sliceL_mem_getD hc
          rw [← hp3]
          exact hdig p hp1 hp2

end CardParser

namespace CardParser

theorem comma_not_mem_strip (l : List Char) : ',' ∉ stripCommaL l := by
  intro h
  rw [stripCommaL, List.mem_filter] at h
  simp at h

/-- Dissecting a full AMOUNT_RE match: the capture store holds exactly
group 1, whose region is the numeral alternation, hence decimal after
comma stripping. -/
theorem AMOUNT_capture {w : List Char} {f i : Nat} {x : Nat × Caps}
    (h : x ∈ mruns w f AMOUNT_RE i []) (hw : i ≤ w.length) :
    ∃ g0, x.2 = [(1, g0, x.1)] ∧
      isDecimalString (⟨stripCommaL (sliceL w g0 x.1)⟩ : String) = true := by
  obtain ⟨f1, y1, _, hy1, hrest⟩ := mruns_cat_ex h
  have hy1c : y1.2 = [] := mruns_groupFree f1 curMarkRE i [] y1 hy1 (by rfl)
  obtain ⟨f2, y2, _, hy2, hgrp⟩ := mruns_cat_ex hrest
  have hy2c : y2.2 = y1.2 := mruns_groupFree f2 wsStar y1.1 y1.2 y2 hy2 (by rfl)
  obtain ⟨f3, z, _, hz, hxv⟩ := mruns_grp_ex hgrp
  have hzc : z.2 = y2.2 :=
    mruns_groupFree f3 (RE.alt amountNumA amountNumB) y2.1 y2.2 z hz (by rfl)
  have hx2 : x.2 = [(1, y2.1, z.1)] := by
    rw [hxv]
    show (1, y2.1, z.1) :: z.2 = [(1, y2.1, z.1)]
    rw [hzc, hy2c, hy1c]
  have hx1 : x.1 = z.1 := by rw [hxv]
  have hw1 : y1.1 ≤ w.length := mruns_ub f1 curMarkRE i [] y1 hy1 hw
  have hw2 : y2.1 ≤ w.length := mruns_ub f2 wsStar y1.1 y1.2 y2 hy2 hw1
  have hx2b : x.2 = [(1, y2.1, x.1)] := by rw [hx1]; exact hx2
  refine ⟨y2.1, hx2b, ?_⟩
  rw [hx1]
  exact numAlt_decimal hz hw2

theorem find_amount_near_shape {t : List Char} {st win : Nat} {a : String}
    (h : find_amount_near t st win = some a) :
    isDecimalString (⟨stripCommaL a.data⟩ : String) = true := by
  unfold find_amount_near at h
  dsimp only at h
  cases hsr : reSearch (sliceL t st (st + win)) AMOUNT_RE with
  | none => rw [hsr] at h; simp at h
  | some m =>
    rw [hsr] at h
    dsimp only at h
    obtain ⟨hstle, hmem⟩ := reSearch_some hsr
    obtain ⟨g0, hcaps, hdec⟩ := AMOUNT_capture hmem hstle
    unfold grpStr capLookup at h
    have hcaps2 : m.caps = [(1, g0, m.en)] := hcaps
    rw [hcaps2] at h
    simp only [List.find?] at h
    simp at h
    rw [← h]
    exact hdec

theorem totalPrimary_shape {lowerC : List Char} {a : String}
    (h : totalPrimary lowerC = some a) :
    ',' ∉ a.data ∧ isDecimalString a = true := by
  unfold totalPrimary at h
  obtain ⟨kw, _, h2⟩ := List.exists_of_findSome?_eq_some h
  obtain ⟨m, _, h3⟩ := List.exists_of_findSome?_eq_some h2
  cases hfa : find_amount_near lowerC m.en 200 with
  | none => rw [hfa] at h3; simp at h3
  | some a0 =>
    rw [hfa] at h3
    have h4 : (⟨stripCommaL a0.data⟩ : String) = a := by simpa using h3
    rw [← h4]
    exact ⟨comma_not_mem_strip _, find_amount_near_shape hfa⟩

theorem totalLoose_shape {textC lowerC : List Char} {a : String}
    (h : totalLoose textC lowerC = some a) :
    ',' ∉ a.data ∧ isDecimalString a = true := by
  unfold totalLoose at h
  obtain ⟨m, _, h3⟩ := List.exists_of_findSome?_eq_some h
  cases hfa : find_amount_near textC m.st 300 with
  | none => rw [hfa] at h3; simp at h3
  | some a0 =>
    rw [hfa] at h3
    have h4 : (⟨stripCommaL a0.data⟩ : String) = a := by simpa using h3
    rw [← h4]
    exact ⟨comma_not_mem_strip _, find_amount_near_shape hfa⟩

/-- C8: total_amount_due, when present, has no comma and parses as a
non-negative decimal number, and every candidates.amounts entry has no
comma: every amount is an AMOUNT_RE group-1 capture with commas
stripped, and the capture consists of digits, group commas and at most
one decimal point. -/
theorem claim_C8_amount_shape (t : String) :
    (∀ a, (extract_datapoints_from_text t).total_amount_due = some a →
      ',' ∉ a.data ∧ isDecimalString a = true) ∧
    (∀ x ∈ (extract_datapoints_from_text t).candidates.amounts, ',' ∉ x.data) := by
  constructor
  · intro a ha
    have h2 : totalField t.data (pyLowerL t.data) = some a := ha
    unfold totalField at h2
    dsimp only at h2
    by_cases hfal : optFalsy (totalPrimary (pyLowerL t.data)) = true
    · rw [if_pos hfal] at h2
      cases hl : totalLoose t.data (pyLowerL t.data) with
      | some x =>
        rw [hl] at h2
        simp only [Option.some.injEq] at h2
        subst h2
        exact totalLoose_shape hl
      | none =>
        rw [hl] at h2
        exact totalPrimary_shape h2
    · rw [if_neg hfal] at h2
      exact totalPrimary_shape h2
  · intro x hx
    have hx2 : x ∈ amountsOf t.data := hx
    unfold amountsOf at hx2
    rw [List.mem_map] at hx2
    obtain ⟨am, _, hxe⟩ := hx2
    rw [← hxe]
    exact comma_not_mem_strip _

/-- C8 witness: the shape theorem applied at a concrete input with a
present comma-grouped amount. -/
theorem claim_C8_witness :
    ',' ∉ "12345.67".data ∧ isDecimalString "12345.67" = true :=
  (claim_C8_amount_shape "total due 12,345.67").1 "12345.67" (by decide)

end CardParser

namespace CardParser

/-! ### The card-last-4 fallback (claim C3) -/

theorem sliceL_take_of_le {s : List Char} {a k1 k2 : Nat} (h : k1 ≤ k2) :
    sliceL s a (a + k1) = (sliceL s a (a + k2)).take k1 := by
  unfold sliceL
  rw [List.take_take]
  have h1 : a + k1 - a = k1 := by omega
  have h2 : a + k2 - a = k2 := by omega
  rw [h1, h2, Nat.min_eq_left h]

/-- A repeated character class matches exactly n satisfying characters. -/
theorem repN_char_len {s : List Char} {p : Char → Bool} :
    ∀ (n f i : Nat) (caps : Caps) (x : Nat × Caps),
      x ∈ mruns s f (repN (RE.char p) n) i caps →
      x.1 = i + n ∧
        ∀ k, k < n → i + k < s.length ∧ p (s.getD (i + k) '?') = true := by
  intro n
  induction n with
  | zero =>
    intro f i caps x hx
    have he := mruns_eps_ex hx
    subst he
    exact ⟨rfl, fun k hk => absurd hk (by omega)⟩
  | succ n ih =>
    intro f i caps x hx
    obtain ⟨f1, y, _, hy, hx2⟩ := mruns_cat_ex hx
    obtain ⟨hlt, hp, hyv⟩ := mruns_char_ex hy
    rw [hyv] at hx2
    obtain ⟨hx1, hdig⟩ := ih f1 (i + 1) caps x hx2
    refine ⟨by omega, ?_⟩
    intro k hk
    cases k with
    | zero => exact ⟨hlt, hp⟩
    | succ k2 =>
      have hd := hdig k2 (by omega)
      have harith : i + 1 + k2 = i + (k2 + 1) := by omega
      rw [harith] at hd
      exact hd

end CardParser

namespace CardParser

/-- Any match of the card-keyword alternation starts with the four
characters card. -/
theorem card_match_sub {lowerC : List Char} {f st : Nat} {caps : Caps}
    {x : Nat × Caps} (h : x ∈ mruns lowerC f cardRE st caps) :
    sliceL lowerC st (st + 4) = "card".data := by
  obtain ⟨f1, _, h1⟩ := mruns_alt_ex h
  rcases h1 with hb1 | hrest
  · obtain ⟨f2, y, _, hy, _⟩ := mruns_cat_ex hb1
    obtain ⟨_, hsl⟩ := mruns_litL_ex "card".data f2 st caps y hy
    exact hsl
  obtain ⟨f2, _, h2⟩ := mruns_alt_ex hrest
  rcases h2 with hb2 | hrest2
  · obtain ⟨_, hsl⟩ := mruns_litL_ex "card no".data f2 st caps x hb2
    rw [show st + "card no".data.length = st + 7 from rfl] at hsl
    rw [sliceL_take_of_le (show 4 ≤ 7 by omega), hsl]
    rfl
  obtain ⟨f3, _, h3⟩ := mruns_alt_ex hrest2
  rcases h3 with hb3 | hb4
  · obtain ⟨_, hsl⟩ := mruns_litL_ex "card number".data f3 st caps x hb3
    rw [show st + "card number".data.length = st + 11 from rfl] at hsl
    rw [sliceL_take_of_le (show 4 ≤ 11 by omega), hsl]
    rfl
  · obtain ⟨_, hsl⟩ := mruns_litL_ex "card account".data f3 st caps x hb4
    rw [show st + "card account".data.length = st + 12 from rfl] at hsl
    rw [sliceL_take_of_le (show 4 ≤ 12 by omega), hsl]
    rfl

theorem hasSub_intro {l sub : List Char} {st : Nat} (hst : st ≤ l.length)
    (h : sliceL l st (st + sub.length) = sub) : hasSub l sub = true := by
  rw [hasSub, List.any_eq_true]
  exact ⟨st, List.mem_range.2 (by omega), decide_eq_true h⟩

/-- A \d{4} match spans exactly the four digits starting at its start. -/
theorem fourRE_digits4At {t : List Char} {f st : Nat} {caps : Caps}
    {x : Nat × Caps} (h : x ∈ mruns t f fourRE st caps) :
    x.1 = st + 4 ∧ digits4At t st = true := by
  obtain ⟨hx1, hk⟩ := repN_char_len 4 f st caps x h
  refine ⟨hx1, ?_⟩
  rw [digits4At, Bool.and_eq_true]
  have hle : st + 4 ≤ t.length := by
    have := (hk 3 (by omega)).1
    omega
  refine ⟨decide_eq_true hle, ?_⟩
  apply sliceL_all
  intro p hp1 hp2
  have hk2 := hk (p - st) (by omega)
  have harith : st + (p - st) = p := by omega
  rw [harith] at hk2
  exact hk2.2

theorem yearOnly_spec {t : List Char} (h : yearOnlyFours t = true) {st : Nat}
    (h2 : digits4At t st = true) :
    1900 ≤ pyIntNat (sliceL t st (st + 4)) ∧
      pyIntNat (sliceL t st (st + 4)) ≤ 2099 := by
  rw [yearOnlyFours, List.all_eq_true] at h
  have hst : st < t.length := by
    rw [digits4At, Bool.and_eq_true, decide_eq_true_eq] at h2
    omega
  have h3 := h st (List.mem_range.2 hst)
  simp only [h2, Bool.not_true, Bool.false_or, Bool.and_eq_true,
    decide_eq_true_eq] at h3
  exact h3

/-- C3 (amended): when the masked-run search finds nothing, the text
contains no card keyword, and every 4-digit substring parses as a year
in [1900, 2099], card_last4 is none. -/
theorem claim_C3_amended (t : String)
    (h1 : reSearch t.data maskedRE = none)
    (h2 : noCardKeyword t.data = true)
    (h3 : yearOnlyFours t.data = true) :
    (extract_datapoints_from_text t).card_last4 = none := by
  have hcardnil : reFinditer (pyLowerL t.data) cardRE = [] := by
    cases hne : reFinditer (pyLowerL t.data) cardRE with
    | nil => rfl
    | cons m rest =>
      exfalso
      have hm : m ∈ reFinditer (pyLowerL t.data) cardRE := by
        rw [hne]
        exact List.mem_cons_self _ _
      obtain ⟨hstle, hmem⟩ := reFinditer_mem hm
      have hsl := card_match_sub hmem
      have hhas : hasSub (pyLowerL t.data) "card".data = true :=
        hasSub_intro hstle hsl
      rw [noCardKeyword, hhas] at h2
      simp at h2
  have hfilnil : (reFinditer t.data fourRE).filter (fun m2 =>
      !(1900 ≤ pyIntNat (sliceL t.data m2.st m2.en) &&
        pyIntNat (sliceL t.data m2.st m2.en) ≤ 2099)) = [] := by
    rw [List.filter_eq_nil_iff]
    intro m2 hm2
    obtain ⟨hstle, hmem⟩ := reFinditer_mem hm2
    obtain ⟨hen, hd4⟩ := fourRE_digits4At hmem
    have hen2 : m2.en = m2.st + 4 := hen
    obtain ⟨hy1, hy2⟩ := yearOnly_spec h3 hd4
    rw [hen2]
    intro hcon
    rw [Bool.not_eq_true'] at hcon
    have htr : (decide (1900 ≤ pyIntNat (sliceL t.data m2.st (m2.st + 4))) &&
        decide (pyIntNat (sliceL t.data m2.st (m2.st + 4)) ≤ 2099)) = true := by
      rw [Bool.and_eq_true]
      exact ⟨decide_eq_true hy1, decide_eq_true hy2⟩
    rw [htr] at hcon
    simp at hcon
  show cardField t.data (pyLowerL t.data) = none
  unfold cardField
  dsimp only
  rw [h1, hcardnil]
  by_cases h4 : (reFinditer t.data fourRE).isEmpty = true
  · rw [if_pos h4]
    rfl
  · rw [if_neg h4]
    rw [if_pos (show (List.map (fun m => m.st) ([] : List PyMatch)).isEmpty
      = true from rfl)]
    rw [hfilnil]
    rfl

/-- C3 witness: the amended theorem applied at a concrete input whose
only 4-digit substrings are the years 2024 and 1999 and that has no
card keyword and no masked run. -/
theorem claim_C3_witness :
    (extract_datapoints_from_text "year 2024 and 1999").card_last4 = none :=
  claim_C3_amended "year 2024 and 1999" (by decide) (by decide) (by decide)

end CardParser

namespace CardParser

/-! ### Amount matches contain a digit (claim C2, amended) -/

/-- Every AMOUNT_RE match consumes at least one digit: both numeral
alternatives of the group start with a digit class. -/
theorem amount_match_digit {w : List Char} {f i : Nat} {caps : Caps}
    {x : Nat × Caps} (h : x ∈ mruns w f AMOUNT_RE i caps) :
    ∃ q, q < w.length ∧ isDigitCh (w.getD q '?') = true := by
  obtain ⟨f1, y1, _, _, hrest⟩ := mruns_cat_ex h
  obtain ⟨f2, y2, _, _, hgrp⟩ := mruns_cat_ex hrest
  obtain ⟨f3, z, _, hz, _⟩ := mruns_grp_ex hgrp
  obtain ⟨f4, _, hcase⟩ := mruns_alt_ex hz
  rcases hcase with hA | hB
  · obtain ⟨f5, u, _, hu, _⟩ := mruns_cat_ex hA
    obtain ⟨f6, v, _, hv, _⟩ := mruns_cat_ex hu
    obtain ⟨f7, v2, _, hv2, _⟩ := mruns_cat_ex hv
    obtain ⟨hlt, hp, _⟩ := mruns_char_ex hv2
    exact ⟨y2.1, hlt, hp⟩
  · obtain ⟨f5, u, _, hu, _⟩ := mruns_cat_ex hB
    obtain ⟨f6, v, _, hv, _⟩ := mruns_cat_ex hu
    obtain ⟨hlt, hp, _⟩ := mruns_char_ex hv
    exact ⟨y2.1, hlt, hp⟩

/-- A digit inside a window of the text is a digit of the text. -/
theorem window_digit {base : List Char} {st win q : Nat}
    (hq : q < (sliceL base st (st + win)).length)
    (hd : isDigitCh ((sliceL base st (st + win)).getD q '?') = true) :
    st + q < base.length ∧ isDigitCh (base.getD (st + q) '?') = true := by
  constructor
  · unfold sliceL at hq
    simp only [List.length_take, List.length_drop, Nat.lt_min] at hq
    omega
  · rw [sliceL_getD '?' hq] at hd
    exact hd

theorem pyLowerL_length {t : List Char} : (pyLowerL t).length = t.length :=
  List.length_map _ _

theorem pyLowerL_getD {t : List Char} {q : Nat} (h : q < t.length) :
    (pyLowerL t).getD q '?' = pyLowerChar (t.getD q '?') := by
  rw [pyLowerL, List.getD_eq_getElem?_getD, List.getElem?_map,
    List.getD_eq_getElem?_getD, List.getElem?_eq_getElem h]
  rfl

/-- Constructing an AMOUNT_RE match at any digit of the text: skip the
optional currency marker and the whitespace, take the plain-digit
alternative with a single digit and no fraction. -/
theorem amount_digit_mem {t : List Char} {q : Nat} (hq : q < t.length)
    (hd : isDigitCh (t.getD q '?') = true) (m : Nat) :
    ((q + 1, ([(1, q, q + 1)] : Caps)) ∈ mruns t (m + 12) AMOUNT_RE q []) := by
  have hch : ((q + 1, ([] : Caps)) ∈ mruns t (m + 6) dCh q []) :=
    mruns_char_in hq hd
  have hst : ((q + 1, ([] : Caps)) ∈ mruns t (m + 6) (RE.star dCh) (q + 1) []) :=
    mruns_star_stop
  have hdplus : ((q + 1, ([] : Caps)) ∈ mruns t (m + 7) (rplus dCh) q []) :=
    mruns_cat_in hch hst
  have hfrac : ((q + 1, ([] : Caps)) ∈ mruns t (m + 7) fracOptRE (q + 1) []) :=
    mruns_alt_inr mruns_eps_in
  have hnumB : ((q + 1, ([] : Caps)) ∈ mruns t (m + 8) amountNumB q []) :=
    mruns_cat_in hdplus hfrac
  have hinner : ((q + 1, ([] : Caps))
      ∈ mruns t (m + 9) (RE.alt amountNumA amountNumB) q []) :=
    mruns_alt_inr hnumB
  have hgrp : ((q + 1, ([(1, q, q + 1)] : Caps))
      ∈ mruns t (m + 10) (RE.grp 1 (RE.alt amountNumA amountNumB)) q []) :=
    mruns_grp_in hinner
  have hws : ((q, ([] : Caps)) ∈ mruns t (m + 10) wsStar q []) :=
    mruns_star_stop
  have hcat2 : ((q + 1, ([(1, q, q + 1)] : Caps))
      ∈ mruns t (m + 11)
        (RE.cat wsStar (RE.grp 1 (RE.alt amountNumA amountNumB))) q []) :=
    mruns_cat_in hws hgrp
  have hcur : ((q, ([] : Caps)) ∈ mruns t (m + 11) curMarkRE q []) :=
    mruns_alt_inr mruns_eps_in
  exact mruns_cat_in hcur hcat2

/-- If the text has a digit anywhere, the full amount scan is nonempty,
so the candidate amounts pool is nonempty. -/
theorem amountsOf_ne_nil {t : List Char} {q : Nat} (hq : q < t.length)
    (hd : isDigitCh (t.getD q '?') = true) : amountsOf t ≠ [] := by
  unfold amountsOf
  intro hcon
  rw [List.map_eq_nil_iff] at hcon
  have hS : 10 ≤ sizeRE AMOUNT_RE := by decide
  have h12 : 12 ≤ fuelFor t AMOUNT_RE := by
    have h1 : 12 ≤ 2 * (sizeRE AMOUNT_RE + 2) := by omega
    have h2 : 2 * (sizeRE AMOUNT_RE + 2) ≤ (t.length + 2) * (sizeRE AMOUNT_RE + 2) :=
      Nat.mul_le_mul_right _ (by omega)
    unfold fuelFor
    omega
  obtain ⟨m, hm⟩ := Nat.exists_eq_add_of_le h12
  have hmem := amount_digit_mem hq hd m
  have hnil := reFinditer_nil hcon q (by omega)
  rw [hm, Nat.add_comm 12 m] at hnil
  rw [hnil] at hmem
  simp at hmem

end CardParser

namespace CardParser

theorem find_amount_near_digit {base : List Char} {st win : Nat} {a : String}
    (h : find_amount_near base st win = some a) :
    ∃ q, q < base.length ∧ isDigitCh (base.getD q '?') = true := by
  unfold find_amount_near at h
  dsimp only at h
  cases hsr : reSearch (sliceL base st (st + win)) AMOUNT_RE with
  | none => rw [hsr] at h; simp at h
  | some mm =>
    obtain ⟨_, hmem⟩ := reSearch_some hsr
    obtain ⟨qw, hqw, hdw⟩ := amount_match_digit hmem
    obtain ⟨h1, h2⟩ := window_digit hqw hdw
    exact ⟨st + qw, h1, h2⟩

theorem totalPrimary_digit {lowerC : List Char} {a : String}
    (h : totalPrimary lowerC = some a) :
    ∃ q, q < lowerC.length ∧ isDigitCh (lowerC.getD q '?') = true := by
  unfold totalPrimary at h
  obtain ⟨kw, _, h2⟩ := List.exists_of_findSome?_eq_some h
  obtain ⟨mk, _, h3⟩ := List.exists_of_findSome?_eq_some h2
  cases hfa : find_amount_near lowerC mk.en 200 with
  | none => rw [hfa] at h3; simp at h3
  | some a0 => exact find_amount_near_digit hfa

theorem totalLoose_digit {textC lowerC : List Char} {a : String}
    (h : totalLoose textC lowerC = some a) :
    ∃ q, q < textC.length ∧ isDigitCh (textC.getD q '?') = true := by
  unfold totalLoose at h
  obtain ⟨mk, _, h3⟩ := List.exists_of_findSome?_eq_some h
  cases hfa : find_amount_near textC mk.st 300 with
  | none => rw [hfa] at h3; simp at h3
  | some a0 => exact find_amount_near_digit hfa

/-- C2 (amended): whenever total_amount_due is present, the candidate
amounts pool is nonempty (every found amount window contains a digit of
the text, and a digit alone already matches AMOUNT_RE in the full
scan).  The corresponding date-side guarantee fails, see the
counterexample. -/
theorem claim_C2_amended (t : String) (a : String)
    (h : (extract_datapoints_from_text t).total_amount_due = some a) :
    (extract_datapoints_from_text t).candidates.amounts ≠ [] := by
  have h2 : totalField t.data (pyLowerL t.data) = some a := h
  have hexq : ∃ q, q < t.data.length ∧ isDigitCh (t.data.getD q '?') = true := by
    have hlower : ∀ {b : String}, totalPrimary (pyLowerL t.data) = some b →
        ∃ q, q < t.data.length ∧ isDigitCh (t.data.getD q '?') = true := by
      intro b hb
      obtain ⟨q, hq, hd⟩ := totalPrimary_digit hb
      rw [pyLowerL_length] at hq
      rw [pyLowerL_getD hq] at hd
      exact ⟨q, hq, isDigitCh_pyLowerChar hd⟩
    unfold totalField at h2
    dsimp only at h2
    by_cases hfal : optFalsy (totalPrimary (pyLowerL t.data)) = true
    · rw [if_pos hfal] at h2
      cases hl : totalLoose t.data (pyLowerL t.data) with
      | some x => exact totalLoose_digit hl
      | none =>
        rw [hl] at h2
        exact hlower h2
    · rw [if_neg hfal] at h2
      exact hlower h2
  obtain ⟨q, hq, hd⟩ := hexq
  show amountsOf t.data ≠ []
  exact amountsOf_ne_nil hq hd

/-- C2 witness: the amended theorem applied at a concrete input with a
present total. -/
theorem claim_C2_witness :
    (extract_datapoints_from_text "total due 5").candidates.amounts ≠ [] :=
  claim_C2_amended "total due 5" "5" (by decide)

end CardParser
